import Mathlib

/-!
Verification of the text-rewriting engine of BBLearnTools (`blackjax.py`) and of
the multiple-choice field builder of `bbtextquiz.py`.

Python strings are embedded as `List Char`.  The regular-expression based
substitutions of the source (`re.sub` with non-greedy patterns, `str.replace`)
are embedded as an explicit left-to-right scan (`pyScan`): at each position a
`step` function either recognizes a leftmost, shortest match and returns the
replacement text together with the remainder of the input after the match, or
fails, in which case one character is copied and the scan moves on by one.
This is exactly the observable behaviour of `re.sub` for the patterns used in
the source, all of which are a literal, followed by an optional non-greedy
group, followed by a literal.
-/

set_option maxRecDepth 10000

/-- Errors raised by the Python source: `NotImplementedError` (from
`fix_latex_delimiters`) and `ValueError` (from `fields_MC`), with their
messages. -/
inductive PyError where
  | notImplementedError : List Char → PyError
  | valueError : List Char → PyError
deriving DecidableEq, Repr

deriving instance DecidableEq for Except

/-- Split a list at the leftmost occurrence of `pat`:
`splitFirst pat l = some (pre, post)` when `l = pre ++ pat ++ post` with `pre`
shortest possible, and `none` when `pat` does not occur in `l`.  This models
the search for the shortest completion of a non-greedy pattern ending in the
literal `pat`. -/
def splitFirst (pat : List Char) : List Char → Option (List Char × List Char)
  | [] => if pat.isPrefixOf [] then some ([], []) else none
  | c :: r =>
    if pat.isPrefixOf (c :: r) then some ([], (c :: r).drop pat.length)
    else (splitFirst pat r).map fun p => (c :: p.1, p.2)

/-- Like `splitFirst`, but the part before the occurrence must be nonempty:
the leftmost occurrence of `pat` at an index of at least one.  This models a
non-greedy `(.+?)` group followed by the literal `pat`. -/
def splitFirstNE (pat : List Char) : List Char → Option (List Char × List Char)
  | [] => none
  | c :: r => (splitFirst pat r).map fun p => (c :: p.1, p.2)

/-- Fueled left-to-right scan underlying `re.sub`: at each position try `step`;
on `some (out, tail)` emit `out` and continue at `tail` (the input after the
match), otherwise copy one character and move on.  The fuel only serves
termination; `pyScan` instantiates it with the length of the input, which
always suffices because every match consumes at least one character. -/
def scanGo (step : List Char → Option (List Char × List Char)) : Nat → List Char → List Char
  | _, [] => []
  | 0, s => s
  | fuel + 1, x :: rest =>
    match step (x :: rest) with
    | some (out, tail) => out ++ scanGo step fuel tail
    | none => x :: scanGo step fuel rest

/-- The `re.sub`-style scan: leftmost match first, then continue after it. -/
def pyScan (step : List Char → Option (List Char × List Char)) (s : List Char) : List Char :=
  scanGo step s.length s

/-- A step function is admissible when every match consumes at least one
character of the input. -/
def StepOk (step : List Char → Option (List Char × List Char)) : Prop :=
  ∀ u out tail, step u = some (out, tail) → tail.length < u.length

theorem splitFirst_nil (pat : List Char) :
    splitFirst pat [] = if pat.isPrefixOf [] then some ([], []) else none := rfl

theorem splitFirst_cons (pat : List Char) (c : Char) (r : List Char) :
    splitFirst pat (c :: r) =
      if pat.isPrefixOf (c :: r) then some ([], (c :: r).drop pat.length)
      else (splitFirst pat r).map fun p => (c :: p.1, p.2) := rfl

theorem splitFirstNE_cons (pat : List Char) (c : Char) (r : List Char) :
    splitFirstNE pat (c :: r) = (splitFirst pat r).map fun p => (c :: p.1, p.2) := rfl

theorem splitFirst_eq {pat : List Char} :
    ∀ l pre post, splitFirst pat l = some (pre, post) → l = pre ++ pat ++ post := by
  intro l
  induction l with
  | nil =>
    intro pre post h
    rw [splitFirst_nil] at h
    by_cases hp : pat.isPrefixOf ([] : List Char)
    · rw [if_pos hp] at h
      have hpat : pat = [] := List.prefix_nil.mp (List.isPrefixOf_iff_prefix.mp hp)
      cases h
      simp [hpat]
    · rw [if_neg hp] at h
      cases h
  | cons c r ih =>
    intro pre post h
    rw [splitFirst_cons] at h
    by_cases hp : pat.isPrefixOf (c :: r)
    · rw [if_pos hp] at h
      have hpre : pat <+: c :: r := List.isPrefixOf_iff_prefix.mp hp
      obtain ⟨t, ht⟩ := hpre
      cases h
      simp [← ht, List.drop_left]
    · rw [if_neg hp] at h
      cases hrec : splitFirst pat r with
      | none => rw [hrec] at h; cases h
      | some p =>
        rw [hrec] at h
        cases h
        have := ih p.1 p.2 (by rw [hrec])
        simp [this]

theorem splitFirst_complete {pat pre post : List Char} :
    (splitFirst pat (pre ++ pat ++ post)).isSome := by
  induction pre with
  | nil =>
    cases hcase : pat ++ post with
    | nil =>
      have hpat : pat = [] := by
        have := congrArg List.length hcase
        simp at this
        exact this.1
      have hpost : post = [] := by
        have := congrArg List.length hcase
        simp at this
        exact this.2
      subst hpat
      subst hpost
      simp [splitFirst_nil, List.isPrefixOf_iff_prefix]
    | cons c r =>
      have hp : pat.isPrefixOf (c :: r) := by
        rw [← hcase]
        rw [List.isPrefixOf_iff_prefix]
        exact ⟨post, rfl⟩
      show (splitFirst pat ([] ++ pat ++ post)).isSome
      rw [List.nil_append, hcase, splitFirst_cons, if_pos hp]
      simp
  | cons c pre' ih =>
    show (splitFirst pat (c :: pre' ++ pat ++ post)).isSome
    rw [List.cons_append, List.cons_append, splitFirst_cons]
    by_cases hp : pat.isPrefixOf (c :: (pre' ++ pat ++ post))
    · rw [if_pos hp]; simp
    · rw [if_neg hp]
      simpa using ih

theorem splitFirstNE_eq {pat : List Char} :
    ∀ l pre post, splitFirstNE pat l = some (pre, post) →
      l = pre ++ pat ++ post ∧ pre ≠ [] := by
  intro l pre post h
  cases l with
  | nil => cases h
  | cons c r =>
    rw [splitFirstNE_cons] at h
    cases hrec : splitFirst pat r with
    | none => rw [hrec] at h; cases h
    | some p =>
      rw [hrec] at h
      cases h
      have := splitFirst_eq r p.1 p.2 hrec
      exact ⟨by simp [this], by simp⟩

/-- Occurrence test used to state side conditions: whether `pat` occurs as a
contiguous substring of `s`. -/
def occursIn (pat s : List Char) : Bool :=
  (splitFirst pat s).isSome

theorem occursIn_iff {pat s : List Char} : occursIn pat s = true ↔ pat <:+: s := by
  constructor
  · intro h
    unfold occursIn at h
    cases hs : splitFirst pat s with
    | none => rw [hs] at h; cases h
    | some p =>
      have := splitFirst_eq s p.1 p.2 hs
      exact ⟨p.1, p.2, by rw [this]⟩
  · rintro ⟨u, v, huv⟩
    unfold occursIn
    have : s = u ++ pat ++ v := by rw [← huv]
    rw [this]
    exact splitFirst_complete

theorem not_infix_of_occursIn_false {pat s : List Char}
    (h : occursIn pat s = false) : ¬ pat <:+: s := by
  intro hc
  rw [← occursIn_iff] at hc
  rw [h] at hc
  cases hc

theorem scanGo_fuel_eq {step : List Char → Option (List Char × List Char)}
    (hstep : StepOk step) :
    ∀ f1 f2 l, l.length ≤ f1 → l.length ≤ f2 → scanGo step f1 l = scanGo step f2 l := by
  intro f1
  induction f1 with
  | zero =>
    intro f2 l h1 _
    have : l = [] := List.length_eq_zero.mp (Nat.le_zero.mp h1)
    subst this
    cases f2 <;> rfl
  | succ f1' ih =>
    intro f2 l h1 h2
    cases l with
    | nil => cases f2 <;> rfl
    | cons x rest =>
      cases f2 with
      | zero => simp at h2
      | succ f2' =>
        show (match step (x :: rest) with
              | some (out, tail) => out ++ scanGo step f1' tail
              | none => x :: scanGo step f1' rest) =
             (match step (x :: rest) with
              | some (out, tail) => out ++ scanGo step f2' tail
              | none => x :: scanGo step f2' rest)
        cases hs : step (x :: rest) with
        | none =>
          simp only []
          have hr1 : rest.length ≤ f1' := by simpa using h1
          have hr2 : rest.length ≤ f2' := by simpa using h2
          rw [ih f2' rest hr1 hr2]
        | some p =>
          simp only []
          have hlt := hstep _ _ _ hs
          have ht1 : p.2.length ≤ f1' := by
            have : p.2.length < rest.length + 1 := by simpa using hlt
            omega
          have ht2 : p.2.length ≤ f2' := by
            have : p.2.length < rest.length + 1 := by simpa using hlt
            have h2' : rest.length + 1 ≤ f2' + 1 := by simpa using h2
            omega
          rw [ih f2' p.2 ht1 ht2]

theorem pyScan_nil {step : List Char → Option (List Char × List Char)} :
    pyScan step [] = [] := rfl

theorem pyScan_cons_none {step : List Char → Option (List Char × List Char)}
    {x : Char} {rest : List Char}
    (h : step (x :: rest) = none) :
    pyScan step (x :: rest) = x :: pyScan step rest := by
  show scanGo step (rest.length + 1) (x :: rest) = x :: pyScan step rest
  show (match step (x :: rest) with
        | some (out, tail) => out ++ scanGo step rest.length tail
        | none => x :: scanGo step rest.length rest) = x :: pyScan step rest
  rw [h]
  rfl

theorem pyScan_matched {step : List Char → Option (List Char × List Char)}
    (hstep : StepOk step) {u out tail : List Char}
    (h : step u = some (out, tail)) :
    pyScan step u = out ++ pyScan step tail := by
  cases u with
  | nil =>
    have := hstep _ _ _ h
    simp at this
  | cons x rest =>
    show scanGo step (rest.length + 1) (x :: rest) = out ++ pyScan step tail
    show (match step (x :: rest) with
          | some (out, tail) => out ++ scanGo step rest.length tail
          | none => x :: scanGo step rest.length rest) = out ++ pyScan step tail
    rw [h]
    show out ++ scanGo step rest.length tail = out ++ pyScan step tail
    have hlt := hstep _ _ _ h
    have htl : tail.length ≤ rest.length := by
      simp at hlt
      omega
    rw [scanGo_fuel_eq hstep rest.length tail.length tail htl (Nat.le_refl _)]
    rfl

/-- Scanning a region that produces no match copies it verbatim. -/
theorem pyScan_append_of_none {step : List Char → Option (List Char × List Char)}
    {A B : List Char}
    (hA : ∀ i, i < A.length → step ((A ++ B).drop i) = none) :
    pyScan step (A ++ B) = A ++ pyScan step B := by
  induction A with
  | nil => simp
  | cons x A' ih =>
    have h0 : step (x :: (A' ++ B)) = none := by
      have := hA 0 (by simp)
      simpa using this
    rw [List.cons_append, pyScan_cons_none h0]
    have ih' := ih (fun i hi => by
      have := hA (i + 1) (by simp; omega)
      simpa using this)
    rw [ih']
    rfl

/-- Step function of Python `str.replace(before, after)`: match the literal
`before` at the current position.  (The guard `before ≠ []` keeps the scan
faithful; the source never substitutes an empty string.) -/
def prStep (before after : List Char) (u : List Char) : Option (List Char × List Char) :=
  if before ≠ [] ∧ before.isPrefixOf u then some (after, u.drop before.length) else none

/-- Python `str.replace(before, after)` on `s`: replace every non-overlapping
occurrence of `before` by `after`, scanning left to right. -/
def pyReplace (before after s : List Char) : List Char :=
  pyScan (prStep before after) s

theorem prStep_ok (before after : List Char) : StepOk (prStep before after) := by
  intro u out tail h
  unfold prStep at h
  by_cases hc : before ≠ [] ∧ before.isPrefixOf u
  · rw [if_pos hc] at h
    cases h
    have hle : before.length ≤ u.length := (List.isPrefixOf_iff_prefix.mp hc.2).length_le
    have hpos : 0 < before.length := List.length_pos.mpr hc.1
    simp only [List.length_drop]
    omega
  · rw [if_neg hc] at h
    cases h

/-- Step function of the regex `(opening.*?closing)` (with `re.DOTALL`), whose
whole match — delimiters included — is replaced by the result of
`.replace(before, after)` on the match: the body of `replace_inside`. -/
def riStep (opening closing before after : List Char) (u : List Char) :
    Option (List Char × List Char) :=
  if opening.isPrefixOf u then
    (splitFirst closing (u.drop opening.length)).map
      fun p => (pyReplace before after (opening ++ p.1 ++ closing), p.2)
  else none

/-- `replace_inside(s, opening, closing, before, after)` from `blackjax.py`:
replace `before` with `after` in all substrings delimited by `opening` and
`closing` (leftmost match first, non-greedy, `re.DOTALL`). -/
def replace_inside (s opening closing before after : List Char) : List Char :=
  pyScan (riStep opening closing before after) s

theorem riStep_ok (opening closing before after : List Char) (hop : opening ≠ []) :
    StepOk (riStep opening closing before after) := by
  intro u out tail h
  unfold riStep at h
  by_cases hc : opening.isPrefixOf u
  · rw [if_pos hc] at h
    cases hs : splitFirst closing (u.drop opening.length) with
    | none => rw [hs] at h; cases h
    | some p =>
      rw [hs] at h
      cases h
      have hd := splitFirst_eq _ p.1 p.2 hs
      have hle : opening.length ≤ u.length := (List.isPrefixOf_iff_prefix.mp hc).length_le
      have hpos : 0 < opening.length := List.length_pos.mpr hop
      have hlen := congrArg List.length hd
      simp only [List.length_drop, List.length_append] at hlen
      omega
  · rw [if_neg hc] at h
    cases h

/-- Step function of the regex `delim(.+?)delim` (with `re.DOTALL`), replacing
the match by `lrep ++ group ++ rrep`: the two substitutions performed by
`fix_latex_delimiters`. -/
def dsStep (delim lrep rrep : List Char) (u : List Char) : Option (List Char × List Char) :=
  if delim.isPrefixOf u then
    (splitFirstNE delim (u.drop delim.length)).map
      fun p => (lrep ++ p.1 ++ rrep, p.2)
  else none

/-- `re.sub(delim + "(.+?)" + delim, lrep + group + rrep, s, flags=re.DOTALL)`:
the substitution shape used twice by `fix_latex_delimiters`. -/
def reSubSpans (delim lrep rrep s : List Char) : List Char :=
  pyScan (dsStep delim lrep rrep) s

theorem dsStep_ok (delim lrep rrep : List Char) (hd : delim ≠ []) :
    StepOk (dsStep delim lrep rrep) := by
  intro u out tail h
  unfold dsStep at h
  by_cases hc : delim.isPrefixOf u
  · rw [if_pos hc] at h
    cases hs : splitFirstNE delim (u.drop delim.length) with
    | none => rw [hs] at h; cases h
    | some p =>
      rw [hs] at h
      cases h
      have hdec := splitFirstNE_eq _ p.1 p.2 hs
      have hle : delim.length ≤ u.length := (List.isPrefixOf_iff_prefix.mp hc).length_le
      have hpos : 0 < delim.length := List.length_pos.mpr hd
      have hlen := congrArg List.length hdec.1
      simp only [List.length_drop, List.length_append] at hlen
      omega
  · rw [if_neg hc] at h
    cases h

/-- The test `re.search(r"\\\$", text) != None` at the top of
`fix_latex_delimiters`: does the text contain a backslash immediately
followed by a dollar sign? -/
def hasEscapedDollar : List Char → Bool
  | [] => false
  | [_] => false
  | a :: b :: rest => (a == '\\' && b == '$') || hasEscapedDollar (b :: rest)

/-- The single-quote character, written via its code point. -/
def squote : Char := Char.ofNat 39

/-- `_MATHJAX_URL` from `blackjax.py`. -/
def _MATHJAX_URL : List Char :=
  "https://cdn.jsdelivr.net/npm/mathjax@2/MathJax.js?config=TeX-AMS_CHTML".toList

/-- The script tag built by `insert_mathjax_script`:
`"<script type='text/javascript' async src='{url}'></script>"` with the two
quoted parts written via `squote`.  The trailing newline of the source is kept
separate in `insert_mathjax_script`. -/
def mathjaxScriptLine (url : List Char) : List Char :=
  "<script type=".toList ++ [squote] ++ "text/javascript".toList ++ [squote]
    ++ " async src=".toList ++ [squote] ++ url ++ [squote] ++ "></script>".toList

/-- `insert_mathjax_script(text, url)` from `blackjax.py`: prepend the script
tag and a newline. -/
def insert_mathjax_script (text url : List Char) : List Char :=
  mathjaxScriptLine url ++ '\n' :: text

/-- `escape_opening_brackets(text)` from `blackjax.py`:
`text.replace('[', '\[')`.  (Despite its docstring, the source has no
carve-out for `<pre>` regions.) -/
def escape_opening_brackets (text : List Char) : List Char :=
  pyReplace "[".toList "\\[".toList text

/-- `fix_latex_delimiters(text)` from `blackjax.py`: raise
`NotImplementedError` when the text contains an escaped dollar; otherwise
substitute `$$...$$` (non-greedy, DOTALL) by
`\begin{equation}...\end{equation}`, and afterwards `$...$` by `\(...\)`. -/
def fix_latex_delimiters (text : List Char) : Except PyError (List Char) :=
  if hasEscapedDollar text then
    Except.error (PyError.notImplementedError "The string contains escaped dollars.".toList)
  else
    Except.ok (reSubSpans "$".toList "\\(".toList "\\)".toList
      (reSubSpans "$$".toList "\\begin{equation}".toList "\\end{equation}".toList text))

/-- `_DELIMITERS` from `blackjax.py`. -/
def _DELIMITERS : List (List Char × List Char) :=
  [("\\(".toList, "\\)".toList),
   ("\\begin{equation}".toList, "\\end{equation}".toList),
   ("\\begin{align}".toList, "\\end{align}".toList)]

/-- `remove_spaces_in_latex(text)` from `blackjax.py`: for each delimiter pair
in `_DELIMITERS`, replace spaces, then newline characters, inside the
delimited substrings by the HTML non-breakable space. -/
def remove_spaces_in_latex (text : List Char) : List Char :=
  _DELIMITERS.foldl
    (fun t d =>
      replace_inside (replace_inside t d.1 d.2 " ".toList "&nbsp;".toList)
        d.1 d.2 "\n".toList "&nbsp;".toList)
    text

/-- `blackjaxify(text, script, script_url, escape_brackets)` from
`blackjax.py`.  The defaults in the source are `script=True`,
`script_url=_MATHJAX_URL`, `escape_brackets=False`; arguments here are
explicit. -/
def blackjaxify (text : List Char) (script : Bool) (script_url : List Char)
    (escape_brackets : Bool) : Except PyError (List Char) :=
  let text1 := if script then insert_mathjax_script text script_url else text
  match fix_latex_delimiters text1 with
  | Except.error e => Except.error e
  | Except.ok text2 =>
      let text3 := if escape_brackets then escape_opening_brackets text2 else text2
      Except.ok (remove_spaces_in_latex text3)

/-- `_format_string(str, script)` from `bbtextquiz.py`: `blackjaxify` then
replace newline characters with spaces. -/
def _format_string (s : List Char) (script : Bool) : Except PyError (List Char) :=
  (blackjaxify s script _MATHJAX_URL false).map fun t => pyReplace "\n".toList " ".toList t

/-- `list(chain.from_iterable([s, "correct" if b else "incorrect"] for (s, b)
in answers))` from `fields_MC` and `fields_MA`. -/
def answerFields : List (List Char × Bool) → List (List Char)
  | [] => []
  | (s, b) :: rest =>
      s :: (if b then "correct".toList else "incorrect".toList) :: answerFields rest

/-- The comprehension `[(_format_string(s, script=False), b) for (s, b) in
answers]`, propagating a failure of any `_format_string` call. -/
def formatAnswers : List (List Char × Bool) → Except PyError (List (List Char × Bool))
  | [] => Except.ok []
  | (s, b) :: rest => do
      let t ← _format_string s false
      let r ← formatAnswers rest
      return (t, b) :: r

/-- `fields_MC(question, answers)` from `bbtextquiz.py`: validate that exactly
one answer is marked `True` (and the others `False`), then format the
question and the answers and build the MC field list. -/
def fields_MC (question : List Char) (answers : List (List Char × Bool)) :
    Except PyError (List (List Char)) :=
  if (answers.map Prod.snd).count true ≠ 1 then
    Except.error (PyError.valueError
      "Exactly one of the proposed answers should be marked as True.".toList)
  else if (answers.map Prod.snd).count false ≠ answers.length - 1 then
    Except.error (PyError.valueError
      "All proposed answers except the correct one should be marked as False".toList)
  else do
    let q ← _format_string question true
    let ans ← formatAnswers answers
    return "MC".toList :: q :: answerFields ans

theorem hasEscapedDollar_iff (l : List Char) :
    hasEscapedDollar l = true ↔ ('\\' :: '$' :: []) <:+: l := by
  induction l with
  | nil =>
    constructor
    · intro h; cases h
    · intro h
      have := h.length_le
      simp at this
  | cons a t ih =>
    cases t with
    | nil =>
      constructor
      · intro h; cases h
      · intro h
        have := h.length_le
        simp at this
    | cons b rest =>
      rw [show hasEscapedDollar (a :: b :: rest) =
            ((a == '\\' && b == '$') || hasEscapedDollar (b :: rest)) from rfl]
      simp only [Bool.or_eq_true, Bool.and_eq_true, beq_iff_eq]
      constructor
      · rintro (⟨ha, hb⟩ | h)
        · subst ha; subst hb
          exact ⟨[], rest, rfl⟩
        · exact List.infix_cons (ih.mp h)
      · intro h
        rcases List.infix_cons_iff.mp h with hpfx | hinf
        · left
          obtain ⟨t2, ht⟩ := hpfx
          simp at ht
          exact ⟨ht.1.symm, ht.2.1.symm⟩
        · right; exact ih.mpr hinf

theorem hasEscapedDollar_append {A : List Char} (hA : '\\' ∉ A) :
    ∀ B, hasEscapedDollar (A ++ B) = hasEscapedDollar B := by
  induction A with
  | nil => intro B; rfl
  | cons a A' ih =>
    intro B
    have ha : a ≠ '\\' := by intro hc; exact hA (by simp [hc])
    have hA' : '\\' ∉ A' := fun hc => hA (by simp [hc])
    cases hAB : A' ++ B with
    | nil =>
      obtain ⟨hA0, hB0⟩ := List.append_eq_nil.mp hAB
      subst hA0; subst hB0
      rfl
    | cons c u =>
      rw [List.cons_append, hAB]
      rw [show hasEscapedDollar (a :: c :: u) =
            ((a == '\\' && c == '$') || hasEscapedDollar (c :: u)) from rfl]
      have hbeq : (a == '\\') = false := beq_eq_false_iff_ne.mpr ha
      rw [hbeq]
      simp only [Bool.false_and, Bool.false_or]
      rw [← hAB]
      exact ih hA' B

/-- With the source defaults, `blackjaxify` is the escaped-dollar guard on the
plain input text followed by the two delimiter substitutions and the
whitespace rewriting (the prepended script tag contains no backslash, so the
guard result does not depend on it). -/
theorem blackjaxify_default_eq (text : List Char) :
    blackjaxify text true _MATHJAX_URL false =
      if hasEscapedDollar text then
        Except.error (PyError.notImplementedError "The string contains escaped dollars.".toList)
      else
        Except.ok (remove_spaces_in_latex
          (reSubSpans "$".toList "\\(".toList "\\)".toList
            (reSubSpans "$$".toList "\\begin{equation}".toList "\\end{equation}".toList
              (insert_mathjax_script text _MATHJAX_URL)))) := by
  have hA : '\\' ∉ (mathjaxScriptLine _MATHJAX_URL ++ ['\n']) := by decide
  have h1 : hasEscapedDollar (insert_mathjax_script text _MATHJAX_URL)
      = hasEscapedDollar text := by
    have hsplit : insert_mathjax_script text _MATHJAX_URL =
        (mathjaxScriptLine _MATHJAX_URL ++ ['\n']) ++ text := by
      simp [insert_mathjax_script]
    rw [hsplit]
    exact hasEscapedDollar_append hA text
  show (match fix_latex_delimiters (insert_mathjax_script text _MATHJAX_URL) with
        | Except.error e => Except.error e
        | Except.ok t2 => Except.ok (remove_spaces_in_latex t2)) = _
  unfold fix_latex_delimiters
  rw [h1]
  by_cases h : hasEscapedDollar text
  · rw [if_pos h, if_pos h]
  · rw [if_neg h, if_neg h]

/-- C1: with the source defaults, `blackjaxify` raises the escaped-dollar
`NotImplementedError` exactly when the input text contains a backslash
immediately followed by a dollar sign — in that case no output string is
produced — and completes with an output and no error otherwise. -/
theorem C1_escaped_dollar_guard (text : List Char) :
    (('\\' :: '$' :: []) <:+: text →
      blackjaxify text true _MATHJAX_URL false =
        Except.error (PyError.notImplementedError
          "The string contains escaped dollars.".toList))
    ∧ (¬ ('\\' :: '$' :: []) <:+: text →
        ∃ out, blackjaxify text true _MATHJAX_URL false = Except.ok out) := by
  constructor
  · intro h
    rw [blackjaxify_default_eq]
    rw [if_pos ((hasEscapedDollar_iff text).mpr h)]
  · intro h
    rw [blackjaxify_default_eq]
    rw [if_neg (fun hc => h ((hasEscapedDollar_iff text).mp hc))]
    exact ⟨_, rfl⟩

/-- Witness for C1, at a concrete input on each side of the guard. -/
theorem C1_escaped_dollar_guard_witness :
    blackjaxify ('\\' :: '$' :: []) true _MATHJAX_URL false =
      Except.error (PyError.notImplementedError
        "The string contains escaped dollars.".toList)
    ∧ ∃ out, blackjaxify ('a' :: []) true _MATHJAX_URL false = Except.ok out :=
  ⟨(C1_escaped_dollar_guard ('\\' :: '$' :: [])).1 (by decide),
   (C1_escaped_dollar_guard ('a' :: [])).2 (by decide)⟩

/-- No occurrence of `pat` starts within the `A` part of `A ++ B`. -/
def NoOcc (pat A B : List Char) : Prop :=
  ∀ i, i < A.length → ¬ pat <+: (A ++ B).drop i

theorem noOcc_append {pat A A' B : List Char}
    (h1 : NoOcc pat A (A' ++ B)) (h2 : NoOcc pat A' B) : NoOcc pat (A ++ A') B := by
  intro i hi
  rw [List.append_assoc]
  by_cases hlt : i < A.length
  · exact h1 i hlt
  · push_neg at hlt
    have hrepr : i = A.length + (i - A.length) := by omega
    rw [hrepr, List.drop_append]
    apply h2
    simp at hi
    omega

/-- An occurrence of a marker `pat` (a backslash followed by backslash-free
text) cannot start inside a region `A` in which `pat` does not occur as a
substring, provided the context after `A` is empty or starts with a
backslash: a crossing occurrence would need the first character after `A` to
be a non-backslash character of `pat`'s tail, yet start with the backslash. -/
theorem noOcc_of_infix_free {pat pt A B : List Char}
    (hpat : pat = '\\' :: pt) (hpt : '\\' ∉ pt)
    (hA : ¬ pat <:+: A)
    (hB : B = [] ∨ ∃ bt, B = '\\' :: bt) :
    NoOcc pat A B := by
  intro i hi hpfx
  rw [List.drop_append_of_le_length (le_of_lt hi)] at hpfx
  by_cases hlen : pat.length ≤ (A.drop i).length
  · have htake := List.prefix_iff_eq_take.mp hpfx
    rw [List.take_append_of_le_length hlen] at htake
    have h1 : pat <+: A.drop i := by
      rw [htake]
      exact List.take_prefix _ _
    exact hA (List.infix_iff_prefix_suffix.mpr ⟨A.drop i, h1, List.drop_suffix i A⟩)
  · push_neg at hlen
    have hAd : A.drop i <+: pat :=
      List.prefix_of_prefix_length_le (List.prefix_append _ _) hpfx (le_of_lt hlen)
    obtain ⟨rest, hrest⟩ := hAd
    rw [← hrest] at hpfx
    have hrestB : rest <+: B := (List.prefix_append_right_inj (A.drop i)).mp hpfx
    have hdlen : 0 < (A.drop i).length := by
      simp [List.length_drop]
      omega
    cases hAdrop : A.drop i with
    | nil => rw [hAdrop] at hdlen; simp at hdlen
    | cons c w =>
      rw [hAdrop] at hrest
      rw [hpat] at hrest
      have hinj := List.cons.injEq c (w ++ rest) '\\' pt ▸ hrest
      rw [List.cons_append] at hrest
      have hc : c = '\\' := (List.cons.inj hrest).1
      have hwrest : w ++ rest = pt := (List.cons.inj hrest).2
      have hrest_sub : rest ⊆ pt := by
        intro x hx
        rw [← hwrest]
        exact List.mem_append.mpr (Or.inr hx)
      rcases hB with hB0 | ⟨bt, hBc⟩
      · subst hB0
        have := List.prefix_nil.mp hrestB
        subst this
        have hlenpt := congrArg List.length hwrest
        have := congrArg List.length hrest
        simp at this
        -- pat = A.drop i with rest = []; then pat <:+: A after all
        apply hA
        have : pat <+: A.drop i := by
          rw [hAdrop, hpat, ← hrest]
          simp
        exact List.infix_iff_prefix_suffix.mpr ⟨A.drop i, this, List.drop_suffix i A⟩
      · subst hBc
        cases hr : rest with
        | nil =>
          subst hr
          apply hA
          have : pat <+: A.drop i := by
            rw [hAdrop, hpat, ← hrest]
            simp
          exact List.infix_iff_prefix_suffix.mpr ⟨A.drop i, this, List.drop_suffix i A⟩
        | cons r0 rtail =>
          subst hr
          obtain ⟨t3, ht3⟩ := hrestB
          rw [List.cons_append] at ht3
          have hr0 : r0 = '\\' := (List.cons.inj ht3).1
          apply hpt
          rw [← hr0]
          exact hrest_sub (List.mem_cons_self r0 rtail)

/-- An occurrence of a marker `pat` cannot start inside another marker `A`
(both start with a backslash and have backslash-free tails, and neither is a
prefix of the other), whatever follows. -/
theorem noOcc_of_heads {pat pt A at' B : List Char}
    (hpat : pat = '\\' :: pt)
    (hA : A = '\\' :: at') (hat : '\\' ∉ at')
    (h1 : ¬ pat <+: A) (h2 : ¬ A <+: pat) :
    NoOcc pat A B := by
  intro i hi hpfx
  rw [List.drop_append_of_le_length (le_of_lt hi)] at hpfx
  by_cases hi0 : i = 0
  · subst hi0
    rw [List.drop_zero] at hpfx
    by_cases hlen : pat.length ≤ A.length
    · exact h1 (List.prefix_of_prefix_length_le hpfx (List.prefix_append A B) hlen)
    · push_neg at hlen
      exact h2 (List.prefix_of_prefix_length_le (List.prefix_append A B) hpfx (le_of_lt hlen))
  · have hipos : 0 < i := Nat.pos_of_ne_zero hi0
    cases hd : A.drop i with
    | nil =>
      have := congrArg List.length hd
      simp at this
      omega
    | cons c w =>
      have hc_mem : c ∈ at' := by
        have hdrop : A.drop i = at'.drop (i - 1) := by
          rw [hA]
          cases i with
          | zero => omega
          | succ j => simp [List.drop_succ_cons]
        have hcin : c ∈ at'.drop (i - 1) := by
          rw [← hdrop, hd]
          exact List.mem_cons_self _ _
        exact List.mem_of_mem_drop hcin
      rw [hd, List.cons_append] at hpfx
      obtain ⟨t3, ht3⟩ := hpfx
      rw [hpat, List.cons_append] at ht3
      have : '\\' = c := (List.cons.inj ht3).1
      exact hat (this ▸ hc_mem)

/-- When no occurrence of `pat` starts strictly inside `pre`, `splitFirst`
finds exactly the explicitly appended occurrence. -/
theorem splitFirst_at {pat : List Char} :
    ∀ pre post, (∀ i, i < pre.length → ¬ pat <+: (pre ++ (pat ++ post)).drop i) →
      splitFirst pat (pre ++ (pat ++ post)) = some (pre, post) := by
  intro pre
  induction pre with
  | nil =>
    intro post _
    cases hshape : pat ++ post with
    | nil =>
      obtain ⟨h1, h2⟩ := List.append_eq_nil.mp hshape
      subst h1; subst h2
      rfl
    | cons c r =>
      rw [List.nil_append, splitFirst_cons,
        if_pos (List.isPrefixOf_iff_prefix.mpr (by rw [← hshape]; exact ⟨post, rfl⟩)),
        ← hshape, List.drop_left]
  | cons c pre' ih =>
    intro post h
    show splitFirst pat (c :: (pre' ++ (pat ++ post))) = some (c :: pre', post)
    rw [splitFirst_cons]
    have h0 : ¬ pat.isPrefixOf (c :: (pre' ++ (pat ++ post))) := by
      intro hc
      exact (h 0 (by simp)) (by simpa using List.isPrefixOf_iff_prefix.mp hc)
    rw [if_neg h0]
    rw [ih post (fun i hi => by
      have := h (i + 1) (by simp; omega)
      simpa using this)]
    rfl

theorem splitFirstNE_at {pat pre post : List Char} (hpre : pre ≠ [])
    (h : ∀ i, i < pre.length → ¬ pat <+: (pre ++ (pat ++ post)).drop i) :
    splitFirstNE pat (pre ++ (pat ++ post)) = some (pre, post) := by
  cases pre with
  | nil => exact absurd rfl hpre
  | cons c pre' =>
    show splitFirstNE pat (c :: (pre' ++ (pat ++ post))) = some (c :: pre', post)
    rw [splitFirstNE_cons]
    rw [splitFirst_at pre' post (fun i hi => by
      have := h (i + 1) (by simp; omega)
      simpa using this)]
    rfl

/-- Expansion of one character under `str.replace(str(b), after)`. -/
def chExpand (b : Char) (a : List Char) (ch : Char) : List Char :=
  if ch = b then a else [ch]

/-- For a one-character pattern, Python `str.replace` is a character-wise
expansion. -/
theorem pyReplace_single (b : Char) (a : List Char) :
    ∀ s, pyReplace [b] a s = s.flatMap (chExpand b a) := by
  intro s
  induction s with
  | nil => rfl
  | cons x rest ih =>
    by_cases hx : x = b
    · subst hx
      have hstep : prStep [x] a (x :: rest) = some (a, rest) := by
        unfold prStep
        rw [if_pos ⟨by simp, List.isPrefixOf_iff_prefix.mpr ⟨rest, rfl⟩⟩]
        rfl
      unfold pyReplace
      rw [pyScan_matched (prStep_ok _ _) hstep]
      rw [show pyScan (prStep [x] a) rest = pyReplace [x] a rest from rfl, ih]
      simp [List.flatMap_cons, chExpand]
    · have hstep : prStep [b] a (x :: rest) = none := by
        unfold prStep
        rw [if_neg]
        rintro ⟨_, hpfx⟩
        obtain ⟨t, ht⟩ := List.isPrefixOf_iff_prefix.mp hpfx
        rw [List.cons_append, List.nil_append] at ht
        exact hx ((List.cons.inj ht).1).symm
      unfold pyReplace
      rw [pyScan_cons_none hstep]
      rw [show pyScan (prStep [b] a) rest = pyReplace [b] a rest from rfl, ih]
      simp [List.flatMap_cons, chExpand, hx]

theorem flatMap_chExpand_of_not_mem {b : Char} {a m : List Char} (hm : b ∉ m) :
    m.flatMap (chExpand b a) = m := by
  induction m with
  | nil => rfl
  | cons x r ih =>
    have hx : x ≠ b := fun hc => hm (by simp [hc])
    simp only [List.flatMap_cons, chExpand, if_neg hx]
    rw [ih (fun hc => hm (by simp [hc]))]
    rfl

/-- `str.replace` on a delimited group leaves delimiters that do not contain
the replaced character unchanged. -/
theorem pyReplace_group {b : Char} {a o cl m : List Char} (ho : b ∉ o) (hcl : b ∉ cl) :
    pyReplace [b] a (o ++ m ++ cl) = o ++ pyReplace [b] a m ++ cl := by
  rw [pyReplace_single, pyReplace_single]
  rw [List.flatMap_append, List.flatMap_append,
    flatMap_chExpand_of_not_mem ho, flatMap_chExpand_of_not_mem hcl]

theorem riStep_none_of_no_pfx {opening closing before after u : List Char}
    (h : ¬ opening <+: u) : riStep opening closing before after u = none := by
  unfold riStep
  rw [if_neg (fun hc => h (List.isPrefixOf_iff_prefix.mp hc))]

/-- A `replace_inside` scan copies verbatim a region in which no occurrence
of the opening delimiter starts. -/
theorem replace_inside_append_noOcc {opening closing before after A B : List Char}
    (h : NoOcc opening A B) :
    replace_inside (A ++ B) opening closing before after
      = A ++ replace_inside B opening closing before after := by
  unfold replace_inside
  apply pyScan_append_of_none
  intro i hi
  exact riStep_none_of_no_pfx (h i hi)

theorem riStep_matched {opening closing before after cont R : List Char}
    (hsplit : splitFirst closing (cont ++ (closing ++ R)) = some (cont, R)) :
    riStep opening closing before after (opening ++ (cont ++ (closing ++ R)))
      = some (pyReplace before after (opening ++ cont ++ closing), R) := by
  unfold riStep
  rw [if_pos (List.isPrefixOf_iff_prefix.mpr ⟨_, rfl⟩), List.drop_left, hsplit]
  rfl

/-- The three delimiter kinds of `_DELIMITERS`, in order. -/
inductive MathKind where
  | minline
  | mequation
  | malign
deriving DecidableEq, Repr

def openOf : MathKind → List Char
  | MathKind.minline => "\\(".toList
  | MathKind.mequation => "\\begin{equation}".toList
  | MathKind.malign => "\\begin{align}".toList

def closeOf : MathKind → List Char
  | MathKind.minline => "\\)".toList
  | MathKind.mequation => "\\end{equation}".toList
  | MathKind.malign => "\\end{align}".toList

/-- `_DELIMITERS` is the list of the three pairs, in kind order. -/
theorem delimiters_eq : _DELIMITERS =
    [(openOf MathKind.minline, closeOf MathKind.minline),
     (openOf MathKind.mequation, closeOf MathKind.mequation),
     (openOf MathKind.malign, closeOf MathKind.malign)] := rfl

/-- The six canonical delimiter markers. -/
def allMarkers : List (List Char) :=
  [openOf MathKind.minline, closeOf MathKind.minline,
   openOf MathKind.mequation, closeOf MathKind.mequation,
   openOf MathKind.malign, closeOf MathKind.malign]

theorem openOf_shape (k : MathKind) : ∃ t, openOf k = '\\' :: t ∧ '\\' ∉ t := by
  cases k <;> exact ⟨_, rfl, by decide⟩

theorem closeOf_shape (k : MathKind) : ∃ t, closeOf k = '\\' :: t ∧ '\\' ∉ t := by
  cases k <;> exact ⟨_, rfl, by decide⟩

theorem openOf_ne_nil (k : MathKind) : openOf k ≠ [] := by
  cases k <;> decide

theorem open_open_not_pfx {k k' : MathKind} (h : k ≠ k') :
    ¬ openOf k <+: openOf k' ∧ ¬ openOf k' <+: openOf k := by
  cases k <;> cases k' <;> first
    | exact absurd rfl h
    | exact ⟨by decide, by decide⟩

theorem open_close_not_pfx (k k' : MathKind) :
    ¬ openOf k <+: closeOf k' ∧ ¬ closeOf k' <+: openOf k := by
  cases k <;> cases k' <;> exact ⟨by decide, by decide⟩

theorem openOf_mem_allMarkers (k : MathKind) : openOf k ∈ allMarkers := by
  cases k <;> decide

theorem closeOf_mem_allMarkers (k : MathKind) : closeOf k ∈ allMarkers := by
  cases k <;> decide

/-- Segment decomposition of a text for the non-nesting precondition: plain
text or a math span of one canonical kind. -/
inductive Seg where
  | txt : List Char → Seg
  | span : MathKind → List Char → Seg
deriving DecidableEq, Repr

def renderSeg : Seg → List Char
  | Seg.txt s => s
  | Seg.span k c => openOf k ++ c ++ closeOf k

def render : List Seg → List Char
  | [] => []
  | sg :: rest => renderSeg sg ++ render rest

/-- Marker-freeness: none of the six canonical markers occurs in `s`. -/
def markerFree (s : List Char) : Bool :=
  allMarkers.all fun m => !(occursIn m s)

/-- Plain-text segments may not be followed by another plain-text segment
(adjacent plain segments are merged), so crossings between two plain regions
cannot hide a marker. -/
def notTxtHead : List Seg → Bool
  | Seg.txt _ :: _ => false
  | _ => true

/-- The non-nesting precondition, made precise: plain segments and span
contents contain none of the six canonical markers (so every marker
occurrence in the rendered text is a delimiter of the segment structure),
and plain segments are merged. -/
def WF : List Seg → Bool
  | [] => true
  | Seg.txt s :: rest => markerFree s && notTxtHead rest && WF rest
  | Seg.span _ c :: rest => markerFree c && WF rest

theorem markerFree_excludes {s m : List Char} (h : markerFree s = true)
    (hm : m ∈ allMarkers) : ¬ m <:+: s := by
  have hall := List.all_eq_true.mp h m hm
  intro hc
  rw [← occursIn_iff] at hc
  rw [hc] at hall
  cases hall

theorem render_shape_of_notTxtHead {rest : List Seg} (h : notTxtHead rest = true) :
    render rest = [] ∨ ∃ bt, render rest = '\\' :: bt := by
  cases rest with
  | nil => exact Or.inl rfl
  | cons sg r =>
    cases sg with
    | txt s => cases h
    | span k c =>
      right
      obtain ⟨t, ht, _⟩ := openOf_shape k
      refine ⟨t ++ c ++ closeOf k ++ render r, ?_⟩
      show (openOf k ++ c ++ closeOf k) ++ render r = _
      rw [ht]
      simp [List.append_assoc]

/-- No occurrence of the opening delimiter of kind `k` starts inside the
rendering of a span of a different kind. -/
theorem noOcc_span {k k' : MathKind} {cont B : List Char} (hne : k' ≠ k)
    (hcont : ¬ openOf k <:+: cont) :
    NoOcc (openOf k) (openOf k' ++ cont ++ closeOf k') B := by
  obtain ⟨pt, hp1, hp2⟩ := openOf_shape k
  obtain ⟨a1, ha1, ha2⟩ := openOf_shape k'
  obtain ⟨a2, hb1, hb2⟩ := closeOf_shape k'
  rw [List.append_assoc]
  apply noOcc_append
  · exact noOcc_of_heads hp1 ha1 ha2
      (open_open_not_pfx (Ne.symm hne)).1 (open_open_not_pfx (Ne.symm hne)).2
  · apply noOcc_append
    · exact noOcc_of_infix_free hp1 hp2 hcont (Or.inr ⟨a2 ++ B, by rw [hb1]; rfl⟩)
    · exact noOcc_of_heads hp1 hb1 hb2
        (open_close_not_pfx k k').1 (open_close_not_pfx k k').2

/-- Effect of one `replace_inside` pass on one segment: the contents of the
spans of kind `k` undergo the inner `str.replace`, everything else is kept. -/
def passSeg (k : MathKind) (before after : List Char) : Seg → Seg
  | Seg.txt s => Seg.txt s
  | Seg.span k' c =>
      if k' = k then Seg.span k' (pyReplace before after c) else Seg.span k' c

/-- One `replace_inside` pass with the delimiter pair of kind `k`, on the
rendering of a well-formed segment list, rewrites exactly the span contents
of kind `k`. -/
theorem replace_inside_render (k : MathKind) {bc : Char} {a : List Char}
    (hbo : bc ∉ openOf k) (hbcl : bc ∉ closeOf k) :
    ∀ segs, WF segs = true →
      replace_inside (render segs) (openOf k) (closeOf k) [bc] a
        = render (segs.map (passSeg k [bc] a)) := by
  intro segs
  induction segs with
  | nil => intro _; rfl
  | cons sg rest ih =>
    intro h
    cases sg with
    | txt s =>
      have hparts : (markerFree s = true ∧ notTxtHead rest = true) ∧ WF rest = true := by
        simpa [WF, Bool.and_eq_true] using h
      obtain ⟨⟨hmf, hnth⟩, hwf⟩ := hparts
      have hno : NoOcc (openOf k) s (render rest) := by
        obtain ⟨pt, hp1, hp2⟩ := openOf_shape k
        exact noOcc_of_infix_free hp1 hp2
          (markerFree_excludes hmf (openOf_mem_allMarkers k))
          (render_shape_of_notTxtHead hnth)
      show replace_inside (s ++ render rest) (openOf k) (closeOf k) [bc] a = _
      rw [replace_inside_append_noOcc hno, ih hwf]
      rfl
    | span k' cont =>
      have hparts : markerFree cont = true ∧ WF rest = true := by
        simpa [WF, Bool.and_eq_true] using h
      obtain ⟨hmf, hwf⟩ := hparts
      by_cases hk : k' = k
      · subst hk
        have hnoC : NoOcc (closeOf k') cont (closeOf k' ++ render rest) := by
          obtain ⟨pt, hp1, hp2⟩ := closeOf_shape k'
          refine noOcc_of_infix_free hp1 hp2
            (markerFree_excludes hmf (closeOf_mem_allMarkers k')) (Or.inr ?_)
          exact ⟨pt ++ render rest, by rw [hp1]; rfl⟩
        have hsplit : splitFirst (closeOf k') (cont ++ (closeOf k' ++ render rest))
            = some (cont, render rest) :=
          splitFirst_at cont (render rest) (fun i hi => hnoC i hi)
        have hassoc : render (Seg.span k' cont :: rest)
            = openOf k' ++ (cont ++ (closeOf k' ++ render rest)) := by
          show (openOf k' ++ cont ++ closeOf k') ++ render rest = _
          simp [List.append_assoc]
        unfold replace_inside
        rw [hassoc]
        rw [pyScan_matched (riStep_ok (openOf k') (closeOf k') [bc] a (openOf_ne_nil k'))
          (riStep_matched hsplit)]
        rw [show pyScan (riStep (openOf k') (closeOf k') [bc] a) (render rest)
              = replace_inside (render rest) (openOf k') (closeOf k') [bc] a from rfl]
        rw [ih hwf]
        rw [pyReplace_group hbo hbcl]
        show _ = renderSeg (passSeg k' [bc] a (Seg.span k' cont))
          ++ render (rest.map (passSeg k' [bc] a))
        rw [show passSeg k' [bc] a (Seg.span k' cont)
              = Seg.span k' (pyReplace [bc] a cont) by simp [passSeg]]
        rfl
      · have hno : NoOcc (openOf k) (openOf k' ++ cont ++ closeOf k') (render rest) :=
          noOcc_span hk (markerFree_excludes hmf (openOf_mem_allMarkers k))
        show replace_inside ((openOf k' ++ cont ++ closeOf k') ++ render rest)
              (openOf k) (closeOf k) [bc] a = _
        rw [replace_inside_append_noOcc hno, ih hwf]
        show _ = renderSeg (passSeg k [bc] a (Seg.span k' cont))
          ++ render (rest.map (passSeg k [bc] a))
        rw [show passSeg k [bc] a (Seg.span k' cont) = Seg.span k' cont by
          simp [passSeg, hk]]
        rfl

/-- The HTML non-breakable space `'&nbsp;'`. -/
def nbspL : List Char := "&nbsp;".toList

theorem nbspL_cons : nbspL = '&' :: 'n' :: 'b' :: 's' :: 'p' :: ';' :: [] := rfl

/-- A string without ampersand that is a prefix of a character-wise
`&nbsp;`-expansion is a prefix of the original: the expansion of the replaced
character starts with an ampersand. -/
theorem pfx_flatMap_nbsp {b : Char} :
    ∀ l m, '&' ∉ m → m <+: l.flatMap (chExpand b nbspL) → m <+: l := by
  intro l
  induction l with
  | nil =>
    intro m _ h
    simpa using h
  | cons x r ih =>
    intro m hamp h
    by_cases hx : x = b
    · rw [List.flatMap_cons, show chExpand b nbspL x = nbspL by simp [chExpand, hx]] at h
      cases m with
      | nil => exact List.nil_prefix
      | cons m0 mt =>
        obtain ⟨t, ht⟩ := h
        rw [nbspL_cons, List.cons_append, List.cons_append] at ht
        have : m0 = '&' := (List.cons.inj ht).1
        exact absurd (by simp [this]) hamp
    · rw [List.flatMap_cons, show chExpand b nbspL x = [x] by simp [chExpand, hx]] at h
      cases m with
      | nil => exact List.nil_prefix
      | cons m0 mt =>
        obtain ⟨t, ht⟩ := h
        rw [List.cons_append] at ht
        rw [show ([x] : List Char) ++ (r.flatMap (chExpand b nbspL))
              = x :: r.flatMap (chExpand b nbspL) from rfl] at ht
        have h0 : m0 = x := (List.cons.inj ht).1
        have h1 : mt ++ t = r.flatMap (chExpand b nbspL) := (List.cons.inj ht).2
        have hmt : mt <+: r := ih mt (fun hc => hamp (by simp [hc])) ⟨t, h1⟩
        obtain ⟨t2, ht2⟩ := hmt
        exact ⟨t2, by rw [h0, List.cons_append, ht2]⟩

/-- A marker (backslash-headed) that occurs in `blk ++ X` where `blk` has no
backslash occurs in `X`. -/
theorem infix_drop_block {m mt : List Char} (hm : m = '\\' :: mt) :
    ∀ blk X, (∀ c' ∈ blk, c' ≠ '\\') → m <:+: blk ++ X → m <:+: X := by
  intro blk
  induction blk with
  | nil => intro X _ h; simpa using h
  | cons c' blk' ih =>
    intro X hb h
    rw [List.cons_append] at h
    rcases List.infix_cons_iff.mp h with hpfx | hinf
    · obtain ⟨t, ht⟩ := hpfx
      rw [hm, List.cons_append] at ht
      have : '\\' = c' := (List.cons.inj ht).1
      exact absurd this.symm (hb c' (List.mem_cons_self _ _))
    · exact ih X (fun c hc => hb c (List.mem_cons_of_mem _ hc)) hinf

/-- A marker (backslash-headed, ampersand-free) that occurs in a
`&nbsp;`-expansion of `l` occurs in `l` itself: the expansion blocks can
neither start nor host a marker occurrence. -/
theorem infix_flatMap_nbsp {b : Char} {m mt : List Char} (hm : m = '\\' :: mt)
    (hamp : '&' ∉ m) :
    ∀ l, m <:+: l.flatMap (chExpand b nbspL) → m <:+: l := by
  intro l
  induction l with
  | nil => intro h; simpa using h
  | cons x r ih =>
    intro h
    by_cases hx : x = b
    · rw [List.flatMap_cons, show chExpand b nbspL x = nbspL by simp [chExpand, hx]] at h
      have h2 : m <:+: r.flatMap (chExpand b nbspL) :=
        infix_drop_block hm nbspL _ (by rw [nbspL_cons]; decide) h
      exact List.infix_cons (ih h2)
    · rw [List.flatMap_cons, show chExpand b nbspL x = [x] by simp [chExpand, hx]] at h
      rw [show ([x] : List Char) ++ (r.flatMap (chExpand b nbspL))
            = x :: r.flatMap (chExpand b nbspL) from rfl] at h
      rcases List.infix_cons_iff.mp h with hpfx | hinf
      · have hpfx2 : m <+: (x :: r).flatMap (chExpand b nbspL) := by
          rw [List.flatMap_cons, show chExpand b nbspL x = [x] by simp [chExpand, hx]]
          exact hpfx
        exact (pfx_flatMap_nbsp (x :: r) m hamp hpfx2).isInfix
      · exact List.infix_cons (ih hinf)

theorem allMarkers_shape :
    ∀ m ∈ allMarkers, m.head? = some '\\' ∧ '&' ∉ m := by decide

/-- Marker-freeness survives the `&nbsp;` substitution of any character. -/
theorem markerFree_nbsp {b : Char} {s : List Char} (h : markerFree s = true) :
    markerFree (pyReplace [b] nbspL s) = true := by
  rw [pyReplace_single]
  rw [markerFree, List.all_eq_true] at h ⊢
  intro m hm
  have hnot := h m hm
  obtain ⟨hhead, hamp⟩ := allMarkers_shape m hm
  have hshape : ∃ mt, m = '\\' :: mt := by
    cases m with
    | nil => cases hhead
    | cons a t =>
      have ha : a = '\\' := by simpa using hhead
      exact ⟨t, by rw [ha]⟩
  obtain ⟨mt, hmt⟩ := hshape
  cases hocc : occursIn m (s.flatMap (chExpand b nbspL)) with
  | false => simp [hocc]
  | true =>
    have hinf : m <:+: s.flatMap (chExpand b nbspL) := occursIn_iff.mp hocc
    have hins : m <:+: s := infix_flatMap_nbsp hmt hamp s hinf
    rw [← occursIn_iff] at hins
    rw [hins] at hnot
    cases hnot

/-- Well-formedness survives one rewriting pass. -/
theorem WF_passSeg {k : MathKind} {bc : Char} :
    ∀ segs, WF segs = true → WF (segs.map (passSeg k [bc] nbspL)) = true := by
  intro segs
  induction segs with
  | nil => intro h; exact h
  | cons sg rest ih =>
    intro h
    cases sg with
    | txt s =>
      have hparts : (markerFree s = true ∧ notTxtHead rest = true) ∧ WF rest = true := by
        simpa [WF, Bool.and_eq_true] using h
      obtain ⟨⟨hmf, hnth⟩, hwf⟩ := hparts
      have hnth' : notTxtHead (rest.map (passSeg k [bc] nbspL)) = true := by
        cases rest with
        | nil => rfl
        | cons sg2 r2 =>
          cases sg2 with
          | txt s2 => cases hnth
          | span k2 c2 =>
            by_cases hk2 : k2 = k <;> simp [passSeg, hk2, notTxtHead]
      show (markerFree s && notTxtHead (rest.map (passSeg k [bc] nbspL))
        && WF (rest.map (passSeg k [bc] nbspL))) = true
      rw [hmf, hnth', ih hwf]
      rfl
    | span k' c =>
      have hparts : markerFree c = true ∧ WF rest = true := by
        simpa [WF, Bool.and_eq_true] using h
      obtain ⟨hmf, hwf⟩ := hparts
      by_cases hk : k' = k
      · show WF (passSeg k [bc] nbspL (Seg.span k' c) :: rest.map (passSeg k [bc] nbspL)) = true
        rw [show passSeg k [bc] nbspL (Seg.span k' c)
              = Seg.span k' (pyReplace [bc] nbspL c) by simp [passSeg, hk]]
        show (markerFree (pyReplace [bc] nbspL c)
          && WF (rest.map (passSeg k [bc] nbspL))) = true
        rw [markerFree_nbsp hmf, ih hwf]
        rfl
      · show WF (passSeg k [bc] nbspL (Seg.span k' c) :: rest.map (passSeg k [bc] nbspL)) = true
        rw [show passSeg k [bc] nbspL (Seg.span k' c) = Seg.span k' c by simp [passSeg, hk]]
        show (markerFree c && WF (rest.map (passSeg k [bc] nbspL))) = true
        rw [hmf, ih hwf]
        rfl

/-- The two `replace_inside` passes that `remove_spaces_in_latex` performs for
one delimiter pair. -/
def wsPass (k : MathKind) (t : List Char) : List Char :=
  replace_inside (replace_inside t (openOf k) (closeOf k) [' '] nbspL)
    (openOf k) (closeOf k) ['\n'] nbspL

/-- `remove_spaces_in_latex` is the three kind passes in `_DELIMITERS` order. -/
theorem remove_spaces_eq (t : List Char) :
    remove_spaces_in_latex t =
      wsPass MathKind.malign (wsPass MathKind.mequation (wsPass MathKind.minline t)) := rfl

theorem space_not_mem_open (k : MathKind) : ' ' ∉ openOf k := by cases k <;> decide

theorem space_not_mem_close (k : MathKind) : ' ' ∉ closeOf k := by cases k <;> decide

theorem newline_not_mem_open (k : MathKind) : '\n' ∉ openOf k := by cases k <;> decide

theorem newline_not_mem_close (k : MathKind) : '\n' ∉ closeOf k := by cases k <;> decide

theorem wsPass_render (k : MathKind) (segs : List Seg) (h : WF segs = true) :
    wsPass k (render segs)
      = render ((segs.map (passSeg k [' '] nbspL)).map (passSeg k ['\n'] nbspL)) := by
  unfold wsPass
  rw [replace_inside_render k (space_not_mem_open k) (space_not_mem_close k) segs h]
  rw [replace_inside_render k (newline_not_mem_open k) (newline_not_mem_close k)
    (segs.map (passSeg k [' '] nbspL)) (WF_passSeg segs h)]

/-- Specification-side whitespace rewriting, phrased as the claim states it:
every space and newline character of a span content is replaced with the
non-breaking placeholder, character by character. -/
def specNbsp (c : List Char) : List Char :=
  c.flatMap fun ch => if ch = ' ' ∨ ch = '\n' then nbspL else [ch]

/-- Specification-side action on one segment: span contents are rewritten by
`specNbsp`, everything else — plain text and the delimiter markers — is left
exactly unchanged. -/
def specRewriteSeg : Seg → Seg
  | Seg.txt s => Seg.txt s
  | Seg.span k c => Seg.span k (specNbsp c)

theorem flatMap_sp_nl :
    ∀ c : List Char,
      (c.flatMap (chExpand ' ' nbspL)).flatMap (chExpand '\n' nbspL) = specNbsp c := by
  intro c
  induction c with
  | nil => rfl
  | cons x r ih =>
    rw [show specNbsp (x :: r)
          = (if x = ' ' ∨ x = '\n' then nbspL else [x]) ++ specNbsp r from rfl]
    rw [List.flatMap_cons, List.flatMap_append, ih]
    by_cases hsp : x = ' '
    · subst hsp
      rw [show chExpand ' ' nbspL ' ' = nbspL from rfl]
      rw [show nbspL.flatMap (chExpand '\n' nbspL) = nbspL by decide]
      rw [if_pos (Or.inl rfl)]
    · by_cases hnl : x = '\n'
      · subst hnl
        rw [show chExpand ' ' nbspL '\n' = ['\n'] by simp [chExpand]]
        rw [show (['\n'] : List Char).flatMap (chExpand '\n' nbspL) = nbspL ++ [] by decide]
        rw [if_pos (Or.inr rfl), List.append_nil]
      · rw [show chExpand ' ' nbspL x = [x] by simp [chExpand, hsp]]
        rw [show ([x] : List Char).flatMap (chExpand '\n' nbspL)
              = chExpand '\n' nbspL x ++ [] from rfl]
        rw [show chExpand '\n' nbspL x = [x] by simp [chExpand, hnl]]
        rw [if_neg (by rintro (h | h) <;> [exact hsp h; exact hnl h])]
        rfl

/-- The source performs the space pass and then the newline pass; together
they are the specification-side character-wise rewriting. -/
theorem pyReplace_sp_nl (c : List Char) :
    pyReplace ['\n'] nbspL (pyReplace [' '] nbspL c) = specNbsp c := by
  rw [pyReplace_single, pyReplace_single]
  exact flatMap_sp_nl c

theorem composite_eq_spec (sg : Seg) :
    passSeg MathKind.malign ['\n'] nbspL
      (passSeg MathKind.malign [' '] nbspL
        (passSeg MathKind.mequation ['\n'] nbspL
          (passSeg MathKind.mequation [' '] nbspL
            (passSeg MathKind.minline ['\n'] nbspL
              (passSeg MathKind.minline [' '] nbspL sg))))) = specRewriteSeg sg := by
  cases sg with
  | txt s => rfl
  | span k c =>
    cases k <;> simp [passSeg, specRewriteSeg, pyReplace_sp_nl]

/-- C2: on the rendering of any well-formed segment list (the non-nesting
precondition), `remove_spaces_in_latex` replaces every space and every
newline strictly inside a canonical span by `'&nbsp;'` and leaves every
character outside the spans, the delimiter markers included, exactly
unchanged. -/
theorem C2_remove_spaces_spec (segs : List Seg) (h : WF segs = true) :
    remove_spaces_in_latex (render segs) = render (segs.map specRewriteSeg) := by
  rw [remove_spaces_eq]
  rw [wsPass_render MathKind.minline segs h]
  have h1 : WF ((segs.map (passSeg MathKind.minline [' '] nbspL)).map
      (passSeg MathKind.minline ['\n'] nbspL)) = true :=
    WF_passSeg _ (WF_passSeg _ h)
  rw [wsPass_render MathKind.mequation _ h1]
  have h2 : WF (((((segs.map (passSeg MathKind.minline [' '] nbspL)).map
      (passSeg MathKind.minline ['\n'] nbspL)).map
        (passSeg MathKind.mequation [' '] nbspL)).map
          (passSeg MathKind.mequation ['\n'] nbspL))) = true :=
    WF_passSeg _ (WF_passSeg _ h1)
  rw [wsPass_render MathKind.malign _ h2]
  rw [List.map_map, List.map_map, List.map_map, List.map_map, List.map_map]
  apply congrArg
  apply List.map_congr_left
  intro sg _
  exact composite_eq_spec sg

/-- Witness for C2 at a concrete segment list, with the rewritten text
computed explicitly. -/
theorem C2_remove_spaces_spec_witness :
    remove_spaces_in_latex
        (render [Seg.txt "See ".toList, Seg.span MathKind.minline "1 + 1".toList,
          Seg.txt " here".toList])
      = render ([Seg.txt "See ".toList, Seg.span MathKind.minline "1 + 1".toList,
          Seg.txt " here".toList].map specRewriteSeg)
    ∧ render ([Seg.txt "See ".toList, Seg.span MathKind.minline "1 + 1".toList,
          Seg.txt " here".toList].map specRewriteSeg)
      = "See \\(1&nbsp;+&nbsp;1\\) here".toList :=
  ⟨C2_remove_spaces_spec _ (by decide), by decide⟩

/-- C3: the delimiter normalizer applies the doubled-dollar substitution
before the single-dollar substitution (for every guard-passing text), so the
doubled-dollar scenario becomes the canonical display form rather than two
inline spans. -/
theorem C3_display_before_inline :
    (∀ text, hasEscapedDollar text = false →
      fix_latex_delimiters text = Except.ok
        (reSubSpans "$".toList "\\(".toList "\\)".toList
          (reSubSpans "$$".toList "\\begin{equation}".toList "\\end{equation}".toList text)))
    ∧ fix_latex_delimiters "$$1+1=2$$".toList
        = Except.ok "\\begin{equation}1+1=2\\end{equation}".toList := by
  constructor
  · intro text h
    rw [fix_latex_delimiters, if_neg (by simp [h])]
  · decide

/-- Witness for C3 on a concrete guard-passing text. -/
theorem C3_display_before_inline_witness :
    fix_latex_delimiters "$$x$$".toList = Except.ok
        (reSubSpans "$".toList "\\(".toList "\\)".toList
          (reSubSpans "$$".toList "\\begin{equation}".toList "\\end{equation}".toList
            "$$x$$".toList)) :=
  C3_display_before_inline.1 "$$x$$".toList (by decide)

/-- C5 counterexample: `remove_spaces_in_latex` does not rewrite the spaces
of a `\[ ... \]` span — that pair is not in `_DELIMITERS` — the output equals
the input verbatim, spaces included, and differs from the rewriting the
claim asserts. -/
theorem C5_bracket_span_counterexample :
    remove_spaces_in_latex "\\[ 1 \\]".toList = "\\[ 1 \\]".toList
    ∧ remove_spaces_in_latex "\\[ 1 \\]".toList ≠ "\\[&nbsp;1&nbsp;\\]".toList :=
  ⟨by decide, by decide⟩

theorem replace_inside_id_of_no_opening {opening closing before after s : List Char}
    (h : ¬ opening <:+: s) :
    replace_inside s opening closing before after = s := by
  have hno : NoOcc opening s [] := by
    intro i hi hpfx
    apply h
    rw [List.append_nil] at hpfx
    exact List.infix_iff_prefix_suffix.mpr ⟨s.drop i, hpfx, List.drop_suffix i s⟩
  have h2 := @replace_inside_append_noOcc opening closing before after s [] hno
  simpa [show replace_inside ([] : List Char) opening closing before after = [] from rfl]
    using h2

/-- C5 amended: the whitespace stage does not treat `\[ ... \]` spans as math
spans at all; on any text in which none of the three canonical opening
delimiters occurs — in particular a text whose only math markup is
`\[ ... \]` — it is the identity, spaces and newlines included. -/
theorem C5_bracket_span_amended {s : List Char}
    (h1 : ¬ openOf MathKind.minline <:+: s)
    (h2 : ¬ openOf MathKind.mequation <:+: s)
    (h3 : ¬ openOf MathKind.malign <:+: s) :
    remove_spaces_in_latex s = s := by
  rw [remove_spaces_eq]
  unfold wsPass
  rw [replace_inside_id_of_no_opening h1, replace_inside_id_of_no_opening h1,
    replace_inside_id_of_no_opening h2, replace_inside_id_of_no_opening h2,
    replace_inside_id_of_no_opening h3, replace_inside_id_of_no_opening h3]

/-- Witness for the amended C5 at a concrete `\[ ... \]` text. -/
theorem C5_bracket_span_amended_witness :
    remove_spaces_in_latex "\\[ a b \\]".toList = "\\[ a b \\]".toList :=
  C5_bracket_span_amended (by decide) (by decide) (by decide)

/-- C7 counterexample: applying `blackjaxify` to its own output is not
rejected and not flagged — it completes silently, returning a fresh output
(with a second copy of the script tag). -/
theorem C7_double_application_counterexample :
    blackjaxify (mathjaxScriptLine _MATHJAX_URL ++ '\n' :: "x".toList)
        true _MATHJAX_URL false
      = Except.ok (mathjaxScriptLine _MATHJAX_URL ++ '\n' ::
          (mathjaxScriptLine _MATHJAX_URL ++ '\n' :: "x".toList)) := by decide

/-- C7 amended: the transform is not idempotent — a second application to the
output of the first returns a different text, with the script tag duplicated
— but the double application is not rejected or flagged: it silently
completes. -/
theorem C7_not_idempotent :
    blackjaxify "x".toList true _MATHJAX_URL false
      = Except.ok (mathjaxScriptLine _MATHJAX_URL ++ '\n' :: "x".toList)
    ∧ blackjaxify (mathjaxScriptLine _MATHJAX_URL ++ '\n' :: "x".toList)
        true _MATHJAX_URL false
      = Except.ok (mathjaxScriptLine _MATHJAX_URL ++ '\n' ::
          (mathjaxScriptLine _MATHJAX_URL ++ '\n' :: "x".toList))
    ∧ (mathjaxScriptLine _MATHJAX_URL ++ '\n' ::
          (mathjaxScriptLine _MATHJAX_URL ++ '\n' :: "x".toList))
      ≠ (mathjaxScriptLine _MATHJAX_URL ++ '\n' :: "x".toList) :=
  ⟨by decide, by decide, by decide⟩

theorem not_pfx_of_head {p0 : Char} {pt u : List Char} (hu : u.head? ≠ some p0) :
    ¬ (p0 :: pt) <+: u := by
  intro hc
  obtain ⟨t, ht⟩ := hc
  rw [List.cons_append] at ht
  rw [← ht] at hu
  exact hu rfl

theorem dsStep_none_of_head {delim lrep rrep : List Char} {d0 : Char} {dt : List Char}
    (hd : delim = d0 :: dt) {u : List Char} (hu : u.head? ≠ some d0) :
    dsStep delim lrep rrep u = none := by
  unfold dsStep
  rw [if_neg]
  intro hc
  exact not_pfx_of_head hu (by rw [← hd]; exact List.isPrefixOf_iff_prefix.mp hc)

/-- A region whose characters all differ from the head of the pattern is
copied verbatim by the scan. -/
theorem pyScan_append_chars {step : List Char → Option (List Char × List Char)}
    {d0 : Char} (hstep0 : ∀ u, u.head? ≠ some d0 → step u = none)
    {A B : List Char} (hA : ∀ c ∈ A, c ≠ d0) :
    pyScan step (A ++ B) = A ++ pyScan step B := by
  apply pyScan_append_of_none
  intro i hi
  apply hstep0
  rw [List.drop_append_of_le_length (le_of_lt hi)]
  cases hd : A.drop i with
  | nil =>
    have := congrArg List.length hd
    simp at this
    omega
  | cons c w =>
    rw [List.cons_append]
    have hc : c ∈ A := List.mem_of_mem_drop (by rw [hd]; exact List.mem_cons_self _ _)
    simpa using hA c hc

theorem reSubSpans_append_chars {delim lrep rrep : List Char} {d0 : Char} {dt : List Char}
    (hd : delim = d0 :: dt) {A B : List Char} (hA : ∀ c ∈ A, c ≠ d0) :
    reSubSpans delim lrep rrep (A ++ B) = A ++ reSubSpans delim lrep rrep B := by
  unfold reSubSpans
  exact pyScan_append_chars (fun u hu => dsStep_none_of_head hd hu) hA

/-- A backslash-free region is copied verbatim by both `replace_inside`
passes of a kind. -/
theorem wsPass_append_chars {k : MathKind} {A B : List Char}
    (hA : ∀ c ∈ A, c ≠ '\\') :
    wsPass k (A ++ B) = A ++ wsPass k B := by
  obtain ⟨t, ht, _⟩ := openOf_shape k
  have hstep0 : ∀ b4 af (u : List Char), u.head? ≠ some '\\' →
      riStep (openOf k) (closeOf k) b4 af u = none := fun b4 af u hu =>
    riStep_none_of_no_pfx (by rw [ht]; exact not_pfx_of_head hu)
  unfold wsPass
  unfold replace_inside
  rw [pyScan_append_chars (fun u hu => hstep0 [' '] nbspL u hu) hA]
  rw [pyScan_append_chars (fun u hu => hstep0 ['\n'] nbspL u hu) hA]

/-- C10: when the script option is on (default URL) and bracket escaping is
off, every successful output of `blackjaxify` starts with the injected script
tag line followed by the newline, verbatim: the later stages never touch the
prepended tag. -/
theorem C10_script_line_intact (text out : List Char)
    (h : blackjaxify text true _MATHJAX_URL false = Except.ok out) :
    ∃ r, out = mathjaxScriptLine _MATHJAX_URL ++ '\n' :: r := by
  rw [blackjaxify_default_eq] at h
  by_cases hg : hasEscapedDollar text
  · rw [if_pos hg] at h
    cases h
  · rw [if_neg hg] at h
    have hdolA : ∀ c ∈ (mathjaxScriptLine _MATHJAX_URL ++ ['\n']), c ≠ '$' := by decide
    have hbsA : ∀ c ∈ (mathjaxScriptLine _MATHJAX_URL ++ ['\n']), c ≠ '\\' := by decide
    have hins : insert_mathjax_script text _MATHJAX_URL
        = (mathjaxScriptLine _MATHJAX_URL ++ ['\n']) ++ text := by
      simp [insert_mathjax_script]
    rw [hins,
      reSubSpans_append_chars (show "$$".toList = '$' :: "$".toList from rfl) hdolA,
      reSubSpans_append_chars (show "$".toList = '$' :: ([] : List Char) from rfl) hdolA,
      remove_spaces_eq, wsPass_append_chars hbsA, wsPass_append_chars hbsA,
      wsPass_append_chars hbsA] at h
    have hout := Except.ok.inj h
    refine ⟨wsPass MathKind.malign (wsPass MathKind.mequation (wsPass MathKind.minline
      (reSubSpans "$".toList "\\(".toList "\\)".toList
        (reSubSpans "$$".toList "\\begin{equation}".toList "\\end{equation}".toList
          text)))), ?_⟩
    rw [← hout]
    simp

/-- Witness for C10 at a concrete input. -/
theorem C10_script_line_intact_witness :
    ∃ r, mathjaxScriptLine _MATHJAX_URL ++ '\n' :: "\\(x\\)".toList
      = mathjaxScriptLine _MATHJAX_URL ++ '\n' :: r :=
  C10_script_line_intact "$x$".toList
    (mathjaxScriptLine _MATHJAX_URL ++ '\n' :: "\\(x\\)".toList) (by decide)

theorem scanGo_mem {step : List Char → Option (List Char × List Char)}
    {P : Char → Prop}
    (hout : ∀ u out tail, step u = some (out, tail) →
      tail <:+ u ∧ ∀ c ∈ out, c ∈ u ∨ P c) :
    ∀ fuel s c, c ∈ scanGo step fuel s → c ∈ s ∨ P c := by
  intro fuel
  induction fuel with
  | zero =>
    intro s c hc
    cases s with
    | nil => cases hc
    | cons x r => exact Or.inl hc
  | succ f ih =>
    intro s c hc
    cases s with
    | nil =>
      rw [show scanGo step (f + 1) [] = [] from rfl] at hc
      cases hc
    | cons x r =>
      cases hs : step (x :: r) with
      | none =>
        have hred : scanGo step (f + 1) (x :: r) = x :: scanGo step f r := by
          rw [show scanGo step (f + 1) (x :: r)
                = (match step (x :: r) with
                   | some (out, tail) => out ++ scanGo step f tail
                   | none => x :: scanGo step f r) from rfl, hs]
        rw [hred] at hc
        rcases List.mem_cons.mp hc with h | h
        · exact Or.inl (by simp [h])
        · rcases ih r c h with h2 | h2
          · exact Or.inl (List.mem_cons_of_mem _ h2)
          · exact Or.inr h2
      | some p =>
        obtain ⟨out, tail⟩ := p
        have hred : scanGo step (f + 1) (x :: r) = out ++ scanGo step f tail := by
          rw [show scanGo step (f + 1) (x :: r)
                = (match step (x :: r) with
                   | some (out, tail) => out ++ scanGo step f tail
                   | none => x :: scanGo step f r) from rfl, hs]
        rw [hred] at hc
        rcases List.mem_append.mp hc with h | h
        · exact (hout _ _ _ hs).2 c h
        · rcases ih tail c h with h2 | h2
          · exact Or.inl ((hout _ _ _ hs).1.subset h2)
          · exact Or.inr h2

/-- Characters of a scan result come from the input or from the replacement
texts that the step function inserts. -/
theorem pyScan_mem {step : List Char → Option (List Char × List Char)}
    {P : Char → Prop}
    (hout : ∀ u out tail, step u = some (out, tail) →
      tail <:+ u ∧ ∀ c ∈ out, c ∈ u ∨ P c) :
    ∀ s c, c ∈ pyScan step s → c ∈ s ∨ P c :=
  fun s c hc => scanGo_mem hout s.length s c hc

theorem prStep_out {before after : List Char} :
    ∀ u out tail, prStep before after u = some (out, tail) →
      tail <:+ u ∧ ∀ c ∈ out, c ∈ u ∨ c ∈ after := by
  intro u out tail h
  unfold prStep at h
  by_cases hcnd : before ≠ [] ∧ before.isPrefixOf u
  · rw [if_pos hcnd] at h
    cases h
    exact ⟨List.drop_suffix _ _, fun c hcm => Or.inr hcm⟩
  · rw [if_neg hcnd] at h
    cases h

theorem pyReplace_mem {before after s : List Char} {c : Char}
    (hc : c ∈ pyReplace before after s) : c ∈ s ∨ c ∈ after :=
  pyScan_mem prStep_out s c hc

theorem splitFirst_parts_subset {pat l pre post : List Char}
    (h : splitFirst pat l = some (pre, post)) :
    pre ⊆ l ∧ post <:+ l := by
  have heq := splitFirst_eq l pre post h
  constructor
  · intro c hcm
    rw [heq]
    exact List.mem_append.mpr (Or.inl (List.mem_append.mpr (Or.inl hcm)))
  · rw [heq, List.append_assoc]
    exact (List.suffix_append _ _).trans (List.suffix_append _ _)

theorem replace_inside_not_mem {s opening closing before after : List Char} {ch : Char}
    (h1 : ch ∉ s) (ho : ch ∉ opening) (hcl : ch ∉ closing) (ha : ch ∉ after) :
    ch ∉ replace_inside s opening closing before after := by
  intro hc
  have hout : ∀ u out tail, riStep opening closing before after u = some (out, tail) →
      tail <:+ u ∧ ∀ c ∈ out, c ∈ u ∨ (c ∈ opening ∨ c ∈ closing ∨ c ∈ after) := by
    intro u out tail h
    unfold riStep at h
    by_cases hcnd : opening.isPrefixOf u
    · rw [if_pos hcnd] at h
      cases hsf : splitFirst closing (u.drop opening.length) with
      | none => rw [hsf] at h; cases h
      | some p =>
        obtain ⟨pre, post⟩ := p
        rw [hsf] at h
        cases h
        obtain ⟨hpre, hpost⟩ := splitFirst_parts_subset hsf
        refine ⟨hpost.trans (List.drop_suffix _ _), ?_⟩
        intro c hcm
        rcases pyReplace_mem hcm with hg | hg
        · rcases List.mem_append.mp hg with hg2 | hg2
          · rcases List.mem_append.mp hg2 with hg3 | hg3
            · exact Or.inr (Or.inl hg3)
            · exact Or.inl (List.mem_of_mem_drop (hpre hg3))
          · exact Or.inr (Or.inr (Or.inl hg2))
        · exact Or.inr (Or.inr (Or.inr hg))
    · rw [if_neg hcnd] at h
      cases h
  rcases pyScan_mem hout s ch hc with h | h
  · exact h1 h
  · rcases h with h | h | h
    · exact ho h
    · exact hcl h
    · exact ha h

theorem splitFirstNE_parts_subset {pat l pre post : List Char}
    (h : splitFirstNE pat l = some (pre, post)) :
    pre ⊆ l ∧ post <:+ l := by
  obtain ⟨heq, _⟩ := splitFirstNE_eq l pre post h
  constructor
  · intro c hcm
    rw [heq]
    exact List.mem_append.mpr (Or.inl (List.mem_append.mpr (Or.inl hcm)))
  · rw [heq, List.append_assoc]
    exact (List.suffix_append _ _).trans (List.suffix_append _ _)

theorem reSubSpans_not_mem {delim lrep rrep s : List Char} {ch : Char}
    (h1 : ch ∉ s) (hl : ch ∉ lrep) (hr : ch ∉ rrep) :
    ch ∉ reSubSpans delim lrep rrep s := by
  intro hc
  have hout : ∀ u out tail, dsStep delim lrep rrep u = some (out, tail) →
      tail <:+ u ∧ ∀ c ∈ out, c ∈ u ∨ (c ∈ lrep ∨ c ∈ rrep) := by
    intro u out tail h
    unfold dsStep at h
    by_cases hcnd : delim.isPrefixOf u
    · rw [if_pos hcnd] at h
      cases hsf : splitFirstNE delim (u.drop delim.length) with
      | none => rw [hsf] at h; cases h
      | some p =>
        obtain ⟨pre, post⟩ := p
        rw [hsf] at h
        cases h
        obtain ⟨hpre, hpost⟩ := splitFirstNE_parts_subset hsf
        refine ⟨hpost.trans (List.drop_suffix _ _), ?_⟩
        intro c hcm
        rcases List.mem_append.mp hcm with hg | hg
        · rcases List.mem_append.mp hg with hg2 | hg2
          · exact Or.inr (Or.inl hg2)
          · exact Or.inl (List.mem_of_mem_drop (hpre hg2))
        · exact Or.inr (Or.inr hg)
    · rw [if_neg hcnd] at h
      cases h
  rcases pyScan_mem hout s ch hc with h | h
  · exact h1 h
  · rcases h with h | h
    · exact hl h
    · exact hr h

theorem pyReplace_not_mem {before after s : List Char} {ch : Char}
    (h1 : ch ∉ s) (h2 : ch ∉ after) :
    ch ∉ pyReplace before after s := by
  intro hc
  rcases pyReplace_mem hc with h | h
  · exact h1 h
  · exact h2 h

/-- With the script option off, `blackjaxify` never inserts a `<` character:
every `<` of the output comes from the input. -/
theorem blackjaxify_no_script_no_lt {text : List Char} {eb : Bool} {out : List Char}
    (h1 : '<' ∉ text)
    (h : blackjaxify text false _MATHJAX_URL eb = Except.ok out) :
    '<' ∉ out := by
  have hmain : blackjaxify text false _MATHJAX_URL eb
      = match fix_latex_delimiters text with
        | Except.error e => Except.error e
        | Except.ok t2 =>
            Except.ok (remove_spaces_in_latex
              (if eb then escape_opening_brackets t2 else t2)) := rfl
  rw [hmain] at h
  unfold fix_latex_delimiters at h
  by_cases hg : hasEscapedDollar text
  · rw [if_pos hg] at h
    cases h
  · rw [if_neg hg] at h
    have hout := Except.ok.inj h
    have h2 : '<' ∉ reSubSpans "$$".toList "\\begin{equation}".toList
        "\\end{equation}".toList text :=
      reSubSpans_not_mem h1 (by decide) (by decide)
    have h3 : '<' ∉ reSubSpans "$".toList "\\(".toList "\\)".toList
        (reSubSpans "$$".toList "\\begin{equation}".toList "\\end{equation}".toList text) :=
      reSubSpans_not_mem h2 (by decide) (by decide)
    have h4 : '<' ∉ (if eb then escape_opening_brackets
        (reSubSpans "$".toList "\\(".toList "\\)".toList
          (reSubSpans "$$".toList "\\begin{equation}".toList "\\end{equation}".toList text))
      else reSubSpans "$".toList "\\(".toList "\\)".toList
          (reSubSpans "$$".toList "\\begin{equation}".toList "\\end{equation}".toList text)) := by
      cases eb with
      | false => exact h3
      | true =>
        rw [if_pos rfl]
        exact pyReplace_not_mem h3 (by decide)
    have h5 : '<' ∉ remove_spaces_in_latex
        (if eb then escape_opening_brackets
          (reSubSpans "$".toList "\\(".toList "\\)".toList
            (reSubSpans "$$".toList "\\begin{equation}".toList "\\end{equation}".toList text))
        else reSubSpans "$".toList "\\(".toList "\\)".toList
            (reSubSpans "$$".toList "\\begin{equation}".toList "\\end{equation}".toList text)) := by
      rw [remove_spaces_eq]
      unfold wsPass
      apply replace_inside_not_mem
      apply replace_inside_not_mem
      apply replace_inside_not_mem
      apply replace_inside_not_mem
      apply replace_inside_not_mem
      apply replace_inside_not_mem
      exact h4
      all_goals decide
    rw [← hout]
    exact h5

/-- C8: when the script option is on, the injector stage returns exactly the
fixed script-tag line for `script_url`, a newline, and the unchanged text;
when the script option is off, the output of `blackjaxify` contains no
`<script` tag for any input whose own text has no `<` character — no stage
introduces one, whatever the math content. -/
theorem C8_script_option (text url : List Char) (eb : Bool) :
    insert_mathjax_script text url = mathjaxScriptLine url ++ '\n' :: text
    ∧ (∀ out, '<' ∉ text →
        blackjaxify text false _MATHJAX_URL eb = Except.ok out →
        ¬ ("<script".toList <:+: out)) := by
  refine ⟨rfl, ?_⟩
  intro out h1 h2 hinf
  have hlt : '<' ∈ out := hinf.subset (by decide)
  exact blackjaxify_no_script_no_lt h1 h2 hlt

/-- Witness for C8: the script-off pipeline output of a concrete math text
carries no script tag. -/
theorem C8_script_option_witness :
    insert_mathjax_script "t".toList "u".toList
      = mathjaxScriptLine "u".toList ++ '\n' :: "t".toList
    ∧ ¬ ("<script".toList <:+: "\\(x\\)".toList) :=
  ⟨(C8_script_option "t".toList "u".toList false).1,
   (C8_script_option "$x$".toList "u".toList false).2 "\\(x\\)".toList
     (by decide) (by decide)⟩

/-- Segment decomposition of a text with properly paired dollar delimiters:
plain dollar-free text, inline `$...$` spans, display `$$...$$` spans, and
already-canonical `\begin{equation}`/`\(` spans. -/
inductive DSeg where
  | dtxt : List Char → DSeg
  | ispan : List Char → DSeg
  | dspan : List Char → DSeg
  | eqspan : List Char → DSeg
  | pspan : List Char → DSeg
deriving DecidableEq, Repr

def renderDSeg : DSeg → List Char
  | DSeg.dtxt s => s
  | DSeg.ispan c => '$' :: (c ++ ['$'])
  | DSeg.dspan c => "$$".toList ++ c ++ "$$".toList
  | DSeg.eqspan c => "\\begin{equation}".toList ++ c ++ "\\end{equation}".toList
  | DSeg.pspan c => "\\(".toList ++ c ++ "\\)".toList

def renderD : List DSeg → List Char
  | [] => []
  | sg :: rest => renderDSeg sg ++ renderD rest

def dollarFree (s : List Char) : Bool :=
  s.all fun c => !(c == '$')

theorem dollarFree_iff {s : List Char} :
    dollarFree s = true ↔ ∀ c ∈ s, c ≠ '$' := by
  unfold dollarFree
  rw [List.all_eq_true]
  constructor
  · intro h c hc
    have := h c hc
    simpa using this
  · intro h c hc
    simpa using h c hc

/-- After a dollar-delimited span the rendering may not continue with a
dollar: the next segment is plain nonempty text, a canonical span, or
nothing. -/
def noSpanHead : List DSeg → Bool
  | DSeg.ispan _ :: _ => false
  | DSeg.dspan _ :: _ => false
  | DSeg.dtxt [] :: _ => false
  | _ => true

/-- Proper pairing of the dollar delimiters: inline and display contents are
nonempty and dollar-free, plain text is dollar-free, and a dollar span is
never immediately followed by another dollar. -/
def DWF : List DSeg → Bool
  | [] => true
  | DSeg.dtxt s :: rest => dollarFree s && DWF rest
  | DSeg.ispan [] :: _ => false
  | DSeg.ispan (x :: c) :: rest => dollarFree (x :: c) && noSpanHead rest && DWF rest
  | DSeg.dspan [] :: _ => false
  | DSeg.dspan (x :: c) :: rest => dollarFree (x :: c) && DWF rest
  | DSeg.eqspan c :: rest => dollarFree c && DWF rest
  | DSeg.pspan c :: rest => dollarFree c && DWF rest

theorem noOcc_chars {pat : List Char} {p0 : Char} {pt A B : List Char}
    (hp : pat = p0 :: pt) (hA : ∀ c ∈ A, c ≠ p0) : NoOcc pat A B := by
  intro i hi
  rw [List.drop_append_of_le_length (le_of_lt hi)]
  cases hd : A.drop i with
  | nil =>
    intro _
    have := congrArg List.length hd
    simp at this
    omega
  | cons c w =>
    rw [List.cons_append, hp]
    apply not_pfx_of_head
    have hc : c ∈ A := List.mem_of_mem_drop (by rw [hd]; exact List.mem_cons_self _ _)
    simpa using hA c hc

theorem ddStep_none_of_second {lrep rrep : List Char} {v : List Char}
    (hv : v.head? ≠ some '$') :
    dsStep "$$".toList lrep rrep ('$' :: v) = none := by
  unfold dsStep
  rw [if_neg]
  intro hc
  obtain ⟨t, ht⟩ := List.isPrefixOf_iff_prefix.mp hc
  rw [show "$$".toList = '$' :: '$' :: ([] : List Char) from rfl, List.cons_append,
    List.cons_append, List.nil_append] at ht
  have hv2 := (List.cons.inj ht).2
  rw [← hv2] at hv
  exact hv rfl

theorem dsStep_matched {delim lrep rrep cont R : List Char}
    (hsplit : splitFirstNE delim (cont ++ (delim ++ R)) = some (cont, R)) :
    dsStep delim lrep rrep (delim ++ (cont ++ (delim ++ R)))
      = some (lrep ++ cont ++ rrep, R) := by
  unfold dsStep
  rw [if_pos (List.isPrefixOf_iff_prefix.mpr ⟨_, rfl⟩), List.drop_left, hsplit]
  rfl

theorem renderD_head_ne_dollar {rest : List DSeg} (h1 : noSpanHead rest = true)
    (h2 : DWF rest = true) : (renderD rest).head? ≠ some '$' := by
  cases rest with
  | nil => simp [renderD]
  | cons sg r =>
    cases sg with
    | dtxt s =>
      cases s with
      | nil => cases h1
      | cons x s' =>
        have hparts : dollarFree (x :: s') = true ∧ DWF r = true := by
          simpa [DWF, Bool.and_eq_true] using h2
        have hx : x ≠ '$' := (dollarFree_iff.mp hparts.1) x (List.mem_cons_self _ _)
        show ((x :: s') ++ renderD r).head? ≠ some '$'
        rw [List.cons_append]
        simpa using hx
    | ispan c => cases h1
    | dspan c => cases h1
    | eqspan c =>
      show ((("\\begin{equation}".toList ++ c ++ "\\end{equation}".toList)
        ++ renderD r)).head? ≠ some '$'
      rw [show "\\begin{equation}".toList = '\\' :: "begin{equation}".toList from rfl]
      simp
    | pspan c =>
      show ((("\\(".toList ++ c ++ "\\)".toList) ++ renderD r)).head? ≠ some '$'
      rw [show "\\(".toList = '\\' :: "(".toList from rfl]
      simp

/-- C6: non-greedy inline matching.  Universally: at an opening dollar, the
first dollar found after it terminates the span — the emitted span is exactly
`\(c\)` for the text `c` before that first closing dollar, and the whole
remainder `R` after the closing dollar stays outside the span, scanned
independently, whatever dollars `R` still contains (a greedy matcher would
instead extend the span into `R`).  In particular the transform of
`"$1+1=2$."` succeeds and its output ends with `"\(1+1=2\)."`, the trailing
period outside the span. -/
theorem C6_non_greedy_inline :
    (∀ c R : List Char, c ≠ [] → (∀ ch ∈ c, ch ≠ '$') →
      reSubSpans "$".toList "\\(".toList "\\)".toList ('$' :: (c ++ ('$' :: R)))
        = "\\(".toList ++ c ++ "\\)".toList
          ++ reSubSpans "$".toList "\\(".toList "\\)".toList R)
    ∧ blackjaxify "$1+1=2$.".toList true _MATHJAX_URL false
      = Except.ok (mathjaxScriptLine _MATHJAX_URL ++ '\n' :: "\\(1+1=2\\).".toList)
    ∧ "\\(1+1=2\\).".toList
        <:+ (mathjaxScriptLine _MATHJAX_URL ++ '\n' :: "\\(1+1=2\\).".toList) := by
  refine ⟨?_, by decide, ⟨mathjaxScriptLine _MATHJAX_URL ++ ['\n'], by simp⟩⟩
  intro c R hne hchars
  have hsplit : splitFirstNE "$".toList (c ++ ("$".toList ++ R)) = some (c, R) :=
    splitFirstNE_at hne
      (fun i hi => noOcc_chars (show "$".toList = '$' :: ([] : List Char) from rfl)
        hchars i hi)
  have hshape : ('$' :: (c ++ ('$' :: R)))
      = "$".toList ++ (c ++ ("$".toList ++ R)) := by
    rw [show ("$".toList : List Char) = ['$'] from rfl]
    simp
  rw [hshape]
  unfold reSubSpans
  rw [pyScan_matched (dsStep_ok _ _ _ (by decide)) (dsStep_matched hsplit)]

/-- Witness for C6's universal clause at a remainder that still contains a
complete dollar pair: the span closes at the first dollar and the later pair
is left to the independent scan of the remainder. -/
theorem C6_non_greedy_inline_witness :
    reSubSpans "$".toList "\\(".toList "\\)".toList
        ('$' :: ("1+1=2".toList ++ ('$' :: ".x$b$".toList)))
      = "\\(".toList ++ "1+1=2".toList ++ "\\)".toList
        ++ reSubSpans "$".toList "\\(".toList "\\)".toList ".x$b$".toList :=
  C6_non_greedy_inline.1 "1+1=2".toList ".x$b$".toList (by decide) (by decide)

/-- The doubled-dollar pass turns display spans into equation spans and keeps
everything else. -/
def pass1Seg : DSeg → DSeg
  | DSeg.dspan c => DSeg.eqspan c
  | sg => sg

theorem reSub_dd_renderD :
    ∀ segs, DWF segs = true →
      reSubSpans "$$".toList "\\begin{equation}".toList "\\end{equation}".toList
        (renderD segs) = renderD (segs.map pass1Seg) := by
  intro segs
  induction segs with
  | nil => intro _; rfl
  | cons sg rest ih =>
    intro h
    cases sg with
    | dtxt s =>
      have hparts : dollarFree s = true ∧ DWF rest = true := by
        simpa [DWF, Bool.and_eq_true] using h
      show reSubSpans "$$".toList "\\begin{equation}".toList "\\end{equation}".toList
        (s ++ renderD rest) = s ++ renderD (rest.map pass1Seg)
      rw [reSubSpans_append_chars (show "$$".toList = '$' :: "$".toList from rfl)
        (dollarFree_iff.mp hparts.1), ih hparts.2]
    | ispan c =>
      cases c with
      | nil => cases h
      | cons x c' =>
        have hparts : dollarFree (x :: c') = true ∧ noSpanHead rest = true
            ∧ DWF rest = true := by
          simpa [DWF, Bool.and_eq_true, and_assoc] using h
        obtain ⟨hdf, hnsh, hwf⟩ := hparts
        have hchars := dollarFree_iff.mp hdf
        have hshape : renderD (DSeg.ispan (x :: c') :: rest)
            = '$' :: ((x :: c') ++ ('$' :: renderD rest)) := by
          show ('$' :: ((x :: c') ++ ['$'])) ++ renderD rest = _
          simp [List.append_assoc]
        rw [hshape]
        unfold reSubSpans
        rw [pyScan_cons_none (ddStep_none_of_second
          (by simpa using hchars x (List.mem_cons_self _ _)))]
        rw [pyScan_append_chars
          (fun u hu => dsStep_none_of_head (show "$$".toList = '$' :: "$".toList from rfl) hu)
          hchars]
        rw [pyScan_cons_none (ddStep_none_of_second (renderD_head_ne_dollar hnsh hwf))]
        rw [show pyScan (dsStep "$$".toList "\\begin{equation}".toList
              "\\end{equation}".toList) (renderD rest)
            = reSubSpans "$$".toList "\\begin{equation}".toList "\\end{equation}".toList
              (renderD rest) from rfl]
        rw [ih hwf]
        show '$' :: ((x :: c') ++ ('$' :: renderD (rest.map pass1Seg)))
          = ('$' :: ((x :: c') ++ ['$'])) ++ renderD (rest.map pass1Seg)
        simp [List.append_assoc]
    | dspan c =>
      cases c with
      | nil => cases h
      | cons x c' =>
        have hparts : dollarFree (x :: c') = true ∧ DWF rest = true := by
          simpa [DWF, Bool.and_eq_true] using h
        obtain ⟨hdf, hwf⟩ := hparts
        have hchars := dollarFree_iff.mp hdf
        have hsplit : splitFirstNE "$$".toList ((x :: c') ++ ("$$".toList ++ renderD rest))
            = some (x :: c', renderD rest) :=
          splitFirstNE_at (by simp)
            (fun i hi => noOcc_chars (show "$$".toList = '$' :: "$".toList from rfl)
              hchars i hi)
        have hshape : renderD (DSeg.dspan (x :: c') :: rest)
            = "$$".toList ++ ((x :: c') ++ ("$$".toList ++ renderD rest)) := by
          show ("$$".toList ++ (x :: c') ++ "$$".toList) ++ renderD rest = _
          simp [List.append_assoc]
        rw [hshape]
        unfold reSubSpans
        rw [pyScan_matched (dsStep_ok _ _ _ (by decide)) (dsStep_matched hsplit)]
        rw [show pyScan (dsStep "$$".toList "\\begin{equation}".toList
              "\\end{equation}".toList) (renderD rest)
            = reSubSpans "$$".toList "\\begin{equation}".toList "\\end{equation}".toList
              (renderD rest) from rfl]
        rw [ih hwf]
        rfl
    | eqspan c =>
      have hparts : dollarFree c = true ∧ DWF rest = true := by
        simpa [DWF, Bool.and_eq_true] using h
      have hA : ∀ ch ∈ renderDSeg (DSeg.eqspan c), ch ≠ '$' := by
        intro ch hch
        rcases List.mem_append.mp hch with h1 | h1
        · rcases List.mem_append.mp h1 with h2 | h2
          · exact (by decide : ∀ x ∈ "\\begin{equation}".toList, x ≠ '$') ch h2
          · exact dollarFree_iff.mp hparts.1 ch h2
        · exact (by decide : ∀ x ∈ "\\end{equation}".toList, x ≠ '$') ch h1
      show reSubSpans "$$".toList "\\begin{equation}".toList "\\end{equation}".toList
        (renderDSeg (DSeg.eqspan c) ++ renderD rest)
        = renderDSeg (DSeg.eqspan c) ++ renderD (rest.map pass1Seg)
      rw [reSubSpans_append_chars (show "$$".toList = '$' :: "$".toList from rfl) hA,
        ih hparts.2]
    | pspan c =>
      have hparts : dollarFree c = true ∧ DWF rest = true := by
        simpa [DWF, Bool.and_eq_true] using h
      have hA : ∀ ch ∈ renderDSeg (DSeg.pspan c), ch ≠ '$' := by
        intro ch hch
        rcases List.mem_append.mp hch with h1 | h1
        · rcases List.mem_append.mp h1 with h2 | h2
          · exact (by decide : ∀ x ∈ "\\(".toList, x ≠ '$') ch h2
          · exact dollarFree_iff.mp hparts.1 ch h2
        · exact (by decide : ∀ x ∈ "\\)".toList, x ≠ '$') ch h1
      show reSubSpans "$$".toList "\\begin{equation}".toList "\\end{equation}".toList
        (renderDSeg (DSeg.pspan c) ++ renderD rest)
        = renderDSeg (DSeg.pspan c) ++ renderD (rest.map pass1Seg)
      rw [reSubSpans_append_chars (show "$$".toList = '$' :: "$".toList from rfl) hA,
        ih hparts.2]

/-- The single-dollar pass turns inline spans into `\(...\)` spans. -/
def pass2Seg : DSeg → DSeg
  | DSeg.ispan c => DSeg.pspan c
  | sg => sg

/-- No display span left (they are consumed by the first pass). -/
def noDspan : List DSeg → Bool
  | [] => true
  | DSeg.dspan _ :: _ => false
  | _ :: rest => noDspan rest

theorem reSub_sd_renderD :
    ∀ segs, DWF segs = true → noDspan segs = true →
      reSubSpans "$".toList "\\(".toList "\\)".toList (renderD segs)
        = renderD (segs.map pass2Seg) := by
  intro segs
  induction segs with
  | nil => intro _ _; rfl
  | cons sg rest ih =>
    intro h hnd
    cases sg with
    | dtxt s =>
      have hparts : dollarFree s = true ∧ DWF rest = true := by
        simpa [DWF, Bool.and_eq_true] using h
      have hnd' : noDspan rest = true := by simpa [noDspan] using hnd
      show reSubSpans "$".toList "\\(".toList "\\)".toList
        (s ++ renderD rest) = s ++ renderD (rest.map pass2Seg)
      rw [reSubSpans_append_chars (show "$".toList = '$' :: ([] : List Char) from rfl)
        (dollarFree_iff.mp hparts.1), ih hparts.2 hnd']
    | ispan c =>
      cases c with
      | nil => cases h
      | cons x c' =>
        have hparts : dollarFree (x :: c') = true ∧ noSpanHead rest = true
            ∧ DWF rest = true := by
          simpa [DWF, Bool.and_eq_true, and_assoc] using h
        obtain ⟨hdf, _, hwf⟩ := hparts
        have hnd' : noDspan rest = true := by simpa [noDspan] using hnd
        have hchars := dollarFree_iff.mp hdf
        have hsplit : splitFirstNE "$".toList ((x :: c') ++ ("$".toList ++ renderD rest))
            = some (x :: c', renderD rest) :=
          splitFirstNE_at (by simp)
            (fun i hi => noOcc_chars (show "$".toList = '$' :: ([] : List Char) from rfl)
              hchars i hi)
        have hshape : renderD (DSeg.ispan (x :: c') :: rest)
            = "$".toList ++ ((x :: c') ++ ("$".toList ++ renderD rest)) := by
          show ('$' :: ((x :: c') ++ ['$'])) ++ renderD rest = _
          rw [show ("$".toList : List Char) = ['$'] from rfl]
          simp [List.append_assoc]
        rw [hshape]
        unfold reSubSpans
        rw [pyScan_matched (dsStep_ok _ _ _ (by decide)) (dsStep_matched hsplit)]
        rw [show pyScan (dsStep "$".toList "\\(".toList "\\)".toList) (renderD rest)
            = reSubSpans "$".toList "\\(".toList "\\)".toList (renderD rest) from rfl]
        rw [ih hwf hnd']
        rfl
    | dspan c => cases hnd
    | eqspan c =>
      have hparts : dollarFree c = true ∧ DWF rest = true := by
        simpa [DWF, Bool.and_eq_true] using h
      have hnd' : noDspan rest = true := by simpa [noDspan] using hnd
      have hA : ∀ ch ∈ renderDSeg (DSeg.eqspan c), ch ≠ '$' := by
        intro ch hch
        rcases List.mem_append.mp hch with h1 | h1
        · rcases List.mem_append.mp h1 with h2 | h2
          · exact (by decide : ∀ x ∈ "\\begin{equation}".toList, x ≠ '$') ch h2
          · exact dollarFree_iff.mp hparts.1 ch h2
        · exact (by decide : ∀ x ∈ "\\end{equation}".toList, x ≠ '$') ch h1
      show reSubSpans "$".toList "\\(".toList "\\)".toList
        (renderDSeg (DSeg.eqspan c) ++ renderD rest)
        = renderDSeg (DSeg.eqspan c) ++ renderD (rest.map pass2Seg)
      rw [reSubSpans_append_chars (show "$".toList = '$' :: ([] : List Char) from rfl) hA,
        ih hparts.2 hnd']
    | pspan c =>
      have hparts : dollarFree c = true ∧ DWF rest = true := by
        simpa [DWF, Bool.and_eq_true] using h
      have hnd' : noDspan rest = true := by simpa [noDspan] using hnd
      have hA : ∀ ch ∈ renderDSeg (DSeg.pspan c), ch ≠ '$' := by
        intro ch hch
        rcases List.mem_append.mp hch with h1 | h1
        · rcases List.mem_append.mp h1 with h2 | h2
          · exact (by decide : ∀ x ∈ "\\(".toList, x ≠ '$') ch h2
          · exact dollarFree_iff.mp hparts.1 ch h2
        · exact (by decide : ∀ x ∈ "\\)".toList, x ≠ '$') ch h1
      show reSubSpans "$".toList "\\(".toList "\\)".toList
        (renderDSeg (DSeg.pspan c) ++ renderD rest)
        = renderDSeg (DSeg.pspan c) ++ renderD (rest.map pass2Seg)
      rw [reSubSpans_append_chars (show "$".toList = '$' :: ([] : List Char) from rfl) hA,
        ih hparts.2 hnd']

theorem noSpanHead_map_pass1 {rest : List DSeg} (h : noSpanHead rest = true) :
    noSpanHead (rest.map pass1Seg) = true := by
  cases rest with
  | nil => rfl
  | cons sg r =>
    cases sg with
    | dtxt s => cases s with
      | nil => cases h
      | cons x s' => rfl
    | ispan c => cases h
    | dspan c => cases h
    | eqspan c => rfl
    | pspan c => rfl

theorem DWF_map_pass1 : ∀ segs, DWF segs = true → DWF (segs.map pass1Seg) = true := by
  intro segs
  induction segs with
  | nil => intro h; exact h
  | cons sg rest ih =>
    intro h
    cases sg with
    | dtxt s =>
      have hparts : dollarFree s = true ∧ DWF rest = true := by
        simpa [DWF, Bool.and_eq_true] using h
      show (dollarFree s && DWF (rest.map pass1Seg)) = true
      rw [hparts.1, ih hparts.2]
      rfl
    | ispan c =>
      cases c with
      | nil => cases h
      | cons x c' =>
        have hparts : dollarFree (x :: c') = true ∧ noSpanHead rest = true
            ∧ DWF rest = true := by
          simpa [DWF, Bool.and_eq_true, and_assoc] using h
        show (dollarFree (x :: c') && noSpanHead (rest.map pass1Seg)
          && DWF (rest.map pass1Seg)) = true
        rw [hparts.1, noSpanHead_map_pass1 hparts.2.1, ih hparts.2.2]
        rfl
    | dspan c =>
      cases c with
      | nil => cases h
      | cons x c' =>
        have hparts : dollarFree (x :: c') = true ∧ DWF rest = true := by
          simpa [DWF, Bool.and_eq_true] using h
        show (dollarFree (x :: c') && DWF (rest.map pass1Seg)) = true
        rw [hparts.1, ih hparts.2]
        rfl
    | eqspan c =>
      have hparts : dollarFree c = true ∧ DWF rest = true := by
        simpa [DWF, Bool.and_eq_true] using h
      show (dollarFree c && DWF (rest.map pass1Seg)) = true
      rw [hparts.1, ih hparts.2]
      rfl
    | pspan c =>
      have hparts : dollarFree c = true ∧ DWF rest = true := by
        simpa [DWF, Bool.and_eq_true] using h
      show (dollarFree c && DWF (rest.map pass1Seg)) = true
      rw [hparts.1, ih hparts.2]
      rfl

theorem noDspan_map_pass1 : ∀ segs : List DSeg, noDspan (segs.map pass1Seg) = true := by
  intro segs
  induction segs with
  | nil => rfl
  | cons sg rest ih =>
    cases sg with
    | dtxt s => exact ih
    | ispan c => exact ih
    | dspan c => exact ih
    | eqspan c => exact ih
    | pspan c => exact ih

/-- The combined action of the two passes of `fix_latex_delimiters` on one
segment: inline spans get `\(...\)`, display spans get the equation form. -/
def fixSeg : DSeg → DSeg
  | DSeg.ispan c => DSeg.pspan c
  | DSeg.dspan c => DSeg.eqspan c
  | sg => sg

theorem map_pass2_pass1 :
    ∀ segs : List DSeg, (segs.map pass1Seg).map pass2Seg = segs.map fixSeg := by
  intro segs
  induction segs with
  | nil => rfl
  | cons sg rest ih =>
    cases sg <;> simp [pass1Seg, pass2Seg, fixSeg, ih]

theorem renderD_map_fix_no_dollar :
    ∀ segs, DWF segs = true → ∀ ch ∈ renderD (segs.map fixSeg), ch ≠ '$' := by
  intro segs
  induction segs with
  | nil => intro _ ch hch; cases hch
  | cons sg rest ih =>
    intro h ch hch
    cases sg with
    | dtxt s =>
      have hparts : dollarFree s = true ∧ DWF rest = true := by
        simpa [DWF, Bool.and_eq_true] using h
      rcases List.mem_append.mp hch with h1 | h1
      · exact dollarFree_iff.mp hparts.1 ch h1
      · exact ih hparts.2 ch h1
    | ispan c =>
      cases c with
      | nil => cases h
      | cons x c' =>
        have hparts : dollarFree (x :: c') = true ∧ noSpanHead rest = true
            ∧ DWF rest = true := by
          simpa [DWF, Bool.and_eq_true, and_assoc] using h
        rcases List.mem_append.mp hch with h1 | h1
        · rcases List.mem_append.mp h1 with h2 | h2
          · rcases List.mem_append.mp h2 with h3 | h3
            · exact (by decide : ∀ y ∈ "\\(".toList, y ≠ '$') ch h3
            · exact dollarFree_iff.mp hparts.1 ch h3
          · exact (by decide : ∀ y ∈ "\\)".toList, y ≠ '$') ch h2
        · exact ih hparts.2.2 ch h1
    | dspan c =>
      cases c with
      | nil => cases h
      | cons x c' =>
        have hparts : dollarFree (x :: c') = true ∧ DWF rest = true := by
          simpa [DWF, Bool.and_eq_true] using h
        rcases List.mem_append.mp hch with h1 | h1
        · rcases List.mem_append.mp h1 with h2 | h2
          · rcases List.mem_append.mp h2 with h3 | h3
            · exact (by decide : ∀ y ∈ "\\begin{equation}".toList, y ≠ '$') ch h3
            · exact dollarFree_iff.mp hparts.1 ch h3
          · exact (by decide : ∀ y ∈ "\\end{equation}".toList, y ≠ '$') ch h2
        · exact ih hparts.2 ch h1
    | eqspan c =>
      have hparts : dollarFree c = true ∧ DWF rest = true := by
        simpa [DWF, Bool.and_eq_true] using h
      rcases List.mem_append.mp hch with h1 | h1
      · rcases List.mem_append.mp h1 with h2 | h2
        · rcases List.mem_append.mp h2 with h3 | h3
          · exact (by decide : ∀ y ∈ "\\begin{equation}".toList, y ≠ '$') ch h3
          · exact dollarFree_iff.mp hparts.1 ch h3
        · exact (by decide : ∀ y ∈ "\\end{equation}".toList, y ≠ '$') ch h2
      · exact ih hparts.2 ch h1
    | pspan c =>
      have hparts : dollarFree c = true ∧ DWF rest = true := by
        simpa [DWF, Bool.and_eq_true] using h
      rcases List.mem_append.mp hch with h1 | h1
      · rcases List.mem_append.mp h1 with h2 | h2
        · rcases List.mem_append.mp h2 with h3 | h3
          · exact (by decide : ∀ y ∈ "\\(".toList, y ≠ '$') ch h3
          · exact dollarFree_iff.mp hparts.1 ch h3
        · exact (by decide : ∀ y ∈ "\\)".toList, y ≠ '$') ch h2
      · exact ih hparts.2 ch h1

/-- C4 counterexample: a lone dollar passes the guard and survives
`fix_latex_delimiters` verbatim, so a `$` delimiter does survive in the
output for a guard-passing input. -/
theorem C4_dollar_survives_counterexample :
    hasEscapedDollar ('$' :: []) = false
    ∧ fix_latex_delimiters ('$' :: []) = Except.ok ('$' :: [])
    ∧ '$' ∈ ('$' :: []) :=
  ⟨by decide, by decide, by decide⟩

/-- C4 amended: on every guard-passing text whose dollar delimiters are
properly paired (a well-formed alternation of dollar-free text, nonempty
inline and display dollar spans, and already-canonical spans), the
normalizer succeeds, rewrites every dollar span into its canonical form,
and no `$` character survives in the output. -/
theorem C4_no_dollar_survives (segs : List DSeg) (hWF : DWF segs = true)
    (hguard : hasEscapedDollar (renderD segs) = false) :
    fix_latex_delimiters (renderD segs) = Except.ok (renderD (segs.map fixSeg))
    ∧ ∀ ch ∈ renderD (segs.map fixSeg), ch ≠ '$' := by
  constructor
  · unfold fix_latex_delimiters
    rw [if_neg (by simp [hguard])]
    rw [reSub_dd_renderD segs hWF]
    rw [reSub_sd_renderD (segs.map pass1Seg) (DWF_map_pass1 segs hWF)
      (noDspan_map_pass1 segs)]
    rw [map_pass2_pass1]
  · exact renderD_map_fix_no_dollar segs hWF

/-- Witness for the amended C4 at a concrete properly paired text. -/
theorem C4_no_dollar_survives_witness :
    fix_latex_delimiters (renderD [DSeg.dtxt "a ".toList, DSeg.ispan "x".toList,
        DSeg.dtxt " and ".toList, DSeg.dspan "y".toList])
      = Except.ok (renderD ([DSeg.dtxt "a ".toList, DSeg.ispan "x".toList,
        DSeg.dtxt " and ".toList, DSeg.dspan "y".toList].map fixSeg))
    ∧ ∀ ch ∈ renderD ([DSeg.dtxt "a ".toList, DSeg.ispan "x".toList,
        DSeg.dtxt " and ".toList, DSeg.dspan "y".toList].map fixSeg), ch ≠ '$' :=
  C4_no_dollar_survives
    [DSeg.dtxt "a ".toList, DSeg.ispan "x".toList,
     DSeg.dtxt " and ".toList, DSeg.dspan "y".toList] (by decide) (by decide)

theorem bool_count_add (l : List Bool) : l.count true + l.count false = l.length := by
  induction l with
  | nil => rfl
  | cons b r ih =>
    cases b <;> simp [List.count_cons] <;> omega

theorem blackjaxify_noscript_ok {text : List Char} (h : hasEscapedDollar text = false) :
    ∃ out, blackjaxify text false _MATHJAX_URL false = Except.ok out := by
  have hmain : blackjaxify text false _MATHJAX_URL false
      = match fix_latex_delimiters text with
        | Except.error e => Except.error e
        | Except.ok t2 => Except.ok (remove_spaces_in_latex t2) := rfl
  rw [hmain]
  unfold fix_latex_delimiters
  rw [if_neg (by simp [h])]
  exact ⟨_, rfl⟩

theorem _format_string_ok_script {q : List Char} (h : hasEscapedDollar q = false) :
    ∃ out, _format_string q true = Except.ok out := by
  unfold _format_string
  rw [blackjaxify_default_eq, if_neg (by simp [h])]
  exact ⟨_, rfl⟩

theorem _format_string_ok_noscript {s : List Char} (h : hasEscapedDollar s = false) :
    ∃ out, _format_string s false = Except.ok out := by
  obtain ⟨o, ho⟩ := blackjaxify_noscript_ok h
  unfold _format_string
  rw [ho]
  exact ⟨_, rfl⟩

theorem formatAnswers_ok : ∀ answers : List (List Char × Bool),
    (∀ p ∈ answers, hasEscapedDollar p.1 = false) →
    ∃ res, formatAnswers answers = Except.ok res := by
  intro answers
  induction answers with
  | nil => intro _; exact ⟨[], rfl⟩
  | cons p rest ih =>
    intro h
    obtain ⟨s, b⟩ := p
    have h1 : hasEscapedDollar s = false := h (s, b) (List.mem_cons_self _ _)
    obtain ⟨t, ht⟩ := _format_string_ok_noscript h1
    obtain ⟨r, hr⟩ := ih (fun q hq => h q (List.mem_cons_of_mem _ hq))
    refine ⟨(t, b) :: r, ?_⟩
    show (_format_string s false >>= fun t =>
      formatAnswers rest >>= fun r => pure ((t, b) :: r)) = Except.ok ((t, b) :: r)
    rw [ht, hr]
    rfl

/-- C9 counterexample: with exactly one answer marked `True` but an escaped
dollar in the question, `fields_MC` raises the formatter's
`NotImplementedError` instead of returning the field list, so the claim's
unconditional success under the one-`True` condition fails. -/
theorem C9_fields_MC_counterexample :
    ([("a".toList, true)].map Prod.snd).count true = 1
    ∧ fields_MC ('\\' :: '$' :: []) [("a".toList, true)]
        = Except.error (PyError.notImplementedError
            "The string contains escaped dollars.".toList) :=
  ⟨by decide, by decide⟩

/-- C9 amended: `fields_MC` raises the `ValueError` whenever the number of
answers marked `True` differs from one; when exactly one answer is `True`
(so that all others are `False`) and neither the question nor any proposed
answer contains an escaped dollar, it returns the MC field list without
error. -/
theorem C9_fields_MC (question : List Char) (answers : List (List Char × Bool)) :
    ((answers.map Prod.snd).count true ≠ 1 →
      fields_MC question answers
        = Except.error (PyError.valueError
            "Exactly one of the proposed answers should be marked as True.".toList))
    ∧ ((answers.map Prod.snd).count true = 1 →
        hasEscapedDollar question = false →
        (∀ p ∈ answers, hasEscapedDollar p.1 = false) →
        ∃ fields, fields_MC question answers = Except.ok fields) := by
  constructor
  · intro h
    unfold fields_MC
    rw [if_pos h]
  · intro h1 hq hans
    unfold fields_MC
    rw [if_neg (by simp [h1])]
    have hcnt := bool_count_add (answers.map Prod.snd)
    rw [h1, List.length_map] at hcnt
    have hlen : (answers.map Prod.snd).count false = answers.length - 1 := by omega
    rw [if_neg (by simp [hlen])]
    obtain ⟨q2, hq2⟩ := _format_string_ok_script hq
    obtain ⟨res, hres⟩ := formatAnswers_ok answers hans
    refine ⟨"MC".toList :: q2 :: answerFields res, ?_⟩
    show (_format_string question true >>= fun q =>
      formatAnswers answers >>= fun ans =>
        pure ("MC".toList :: q :: answerFields ans))
      = Except.ok ("MC".toList :: q2 :: answerFields res)
    rw [hq2, hres]
    rfl

/-- Witness for C9 on both sides of the validation. -/
theorem C9_fields_MC_witness :
    fields_MC "q".toList []
      = Except.error (PyError.valueError
          "Exactly one of the proposed answers should be marked as True.".toList)
    ∧ ∃ fields, fields_MC "q".toList [("a".toList, true)] = Except.ok fields :=
  ⟨(C9_fields_MC "q".toList []).1 (by decide),
   (C9_fields_MC "q".toList [("a".toList, true)]).2 (by decide) (by decide) (by decide)⟩
